import Mathlib

/-!
Verification development for the Electrum (LBRY variant) header-chain store,
`electrum/blockchain.py`.  The Python source is shallowly embedded below:
pure functions become Lean functions, Python exceptions become `Except PyErr`,
Python machine-independent ints become `ℕ`/`ℤ`, and CPython `float` values are
modelled as rationals together with an explicit correct-rounding function `fl`
(round to nearest, ties to even, 53-bit significand), which is the exact
semantics of IEEE-754 binary64 for the magnitude range exercised here
(all values lie well inside the normal range, so overflow/underflow cannot
occur and are not modelled).
-/

/-- The kinds of Python exceptions raised by `blockchain.py`:
`MissingHeader(height)`, `MissingHeader()` (no argument, in `get_target`),
`InvalidHeader`, `AssertionError` (from `assert`), `AttributeError`
(attribute access on `None`), `TypeError` (calling a non-callable),
`IndexError` (list index out of range) and plain `Exception`. -/
inductive PyErr where
  | missingHeader (h : ℤ)
  | missingHeaderBare
  | invalidHeader
  | assertionError
  | attributeError
  | typeError
  | indexError
  | exception
  deriving DecidableEq, Repr

/-- Decidable equality for `Except` results (kernel-reducible, used to
evaluate the embedded functions on concrete inputs). -/
instance exceptDecEq {e a : Type} [DecidableEq e] [DecidableEq a] :
    DecidableEq (Except e a) := fun x y =>
  match x, y with
  | Except.ok v, Except.ok w =>
    if h : v = w then Decidable.isTrue (by rw [h])
    else Decidable.isFalse (by intro hc; injection hc; exact h (by assumption))
  | Except.error v, Except.error w =>
    if h : v = w then Decidable.isTrue (by rw [h])
    else Decidable.isFalse (by intro hc; injection hc; exact h (by assumption))
  | Except.ok _, Except.error _ => Decidable.isFalse (fun hc => Except.noConfusion hc)
  | Except.error _, Except.ok _ => Decidable.isFalse (fun hc => Except.noConfusion hc)

/-- Fuel-based binary logarithm (structural recursion, so that it reduces
inside the kernel; `Nat.log2` itself is defined by well-founded recursion). -/
def log2Aux : ℕ → ℕ → ℕ
  | 0, _ => 0
  | fuel+1, n => if n ≥ 2 then log2Aux fuel (n / 2) + 1 else 0

/-- Binary logarithm `⌊log₂ n⌋` (0 for `n = 0`), computable by kernel reduction. -/
def nlog2 (n : ℕ) : ℕ := log2Aux (n + 1) n

/-- Round `a/b` (for `b > 0`) to the nearest integer, ties to even. -/
def rnd (a b : ℕ) : ℕ :=
  let q := a / b
  let r := a % b
  if 2 * r < b then q
  else if b < 2 * r then q + 1
  else if q % 2 = 0 then q else q + 1

/-- Decide `2^e ≤ a/b` for naturals `a, b ≥ 1` and an integer exponent. -/
def pow2le (e : ℤ) (a b : ℕ) : Bool :=
  if 0 ≤ e then decide (b * 2 ^ e.toNat ≤ a) else decide (b ≤ a * 2 ^ (-e).toNat)

/-- Floor of `log₂ (a/b)` for `a, b ≥ 1`. -/
def flogQ (a b : ℕ) : ℤ :=
  let e0 : ℤ := (nlog2 a : ℤ) - (nlog2 b : ℤ)
  if pow2le e0 a b then e0 else e0 - 1

/-- The IEEE-754 binary64 (double) value nearest to the positive rational
`a/b` (`a, b ≥ 1`), ties to even: scale so the significand lands in
`[2^52, 2^53]` and round. -/
def flPos (a b : ℕ) : ℚ :=
  let e : ℤ := flogQ a b - 52
  if 0 ≤ e then (rnd a (b * 2 ^ e.toNat) : ℚ) * 2 ^ e.toNat
  else (rnd (a * 2 ^ (-e).toNat) b : ℚ) / 2 ^ (-e).toNat

/-- A CPython `float` value carried as an exact (unnormalised) fraction
`num / den`.  Every operation that produces a float applies the correct
rounding `flF` below, so the fraction held is always the exact value of the
corresponding IEEE-754 double.  Denominators are positive in all reachable
states. -/
structure Frac where
  num : ℤ
  den : ℕ
  deriving DecidableEq, Repr

/-- The rational value of a fraction. -/
def fval (f : Frac) : ℚ := (f.num : ℚ) / (f.den : ℚ)

/-- Correct rounding of an exact fraction to IEEE-754 binary64 (round to
nearest, ties to even), the computable counterpart of `flPos`. -/
def flF (f : Frac) : Frac :=
  if f.num = 0 then ⟨0, 1⟩
  else
    let s : ℤ := if f.num < 0 then -1 else 1
    let a : ℕ := f.num.natAbs
    let b : ℕ := f.den
    let e : ℤ := flogQ a b - 52
    if 0 ≤ e then ⟨s * ((rnd a (b * 2 ^ e.toNat) * 2 ^ e.toNat : ℕ) : ℤ), 1⟩
    else ⟨s * ((rnd (a * 2 ^ (-e).toNat) b : ℕ) : ℤ), 2 ^ (-e).toNat⟩

/-- Exact difference of two float values (CPython rounds it afterwards). -/
def fSub (f g : Frac) : Frac :=
  ⟨f.num * (g.den : ℤ) - g.num * (f.den : ℤ), f.den * g.den⟩

/-- Exact sum of two float values. -/
def fAdd (f g : Frac) : Frac :=
  ⟨f.num * (g.den : ℤ) + g.num * (f.den : ℤ), f.den * g.den⟩

/-- Exact product of two float values. -/
def fMul (f g : Frac) : Frac :=
  ⟨f.num * g.num, f.den * g.den⟩

/-- Exact quotient of two float values (for a divisor with positive value,
the only case reached in this code). -/
def fDiv (f g : Frac) : Frac :=
  ⟨f.num * (g.den : ℤ), f.den * g.num.toNat⟩

/-- CPython `int` → `float` conversion (one correct rounding). -/
def pyIntToFloat (n : ℤ) : Frac := flF ⟨n, 1⟩

/-- CPython `int / int` true division: the correctly rounded exact quotient. -/
def pyIntTrueDiv (a : ℤ) (b : ℕ) : Frac := flF ⟨a, b⟩

/-- CPython `float - float`: round the exact difference. -/
def pyFSub (f g : Frac) : Frac := flF (fSub f g)

/-- CPython `float + float`: round the exact sum. -/
def pyFAdd (f g : Frac) : Frac := flF (fAdd f g)

/-- CPython `float * float`: round the exact product. -/
def pyFMul (f g : Frac) : Frac := flF (fMul f g)

/-- CPython `float / float`: round the exact quotient. -/
def pyFDiv (f g : Frac) : Frac := flF (fDiv f g)

/-- CPython `float % int` for the nonnegative float and positive modulus
used here (`x % 2**256`): the exact remainder `x - y*⌊x/y⌋`, which is always
exactly representable, so no rounding step is applied. -/
def pymodF (f : Frac) (y : ℕ) : Frac :=
  ⟨f.num - (y : ℤ) * (f.den : ℤ) * (Int.fdiv f.num ((y : ℤ) * (f.den : ℤ))), f.den⟩

/-- CPython `int(x)` on a float: truncation toward zero. -/
def ftrunc (f : Frac) : ℤ := Int.tdiv f.num f.den

/-- CPython `x < y` on floats (value comparison; faithful when both
denominators are positive, which holds in all reachable states). -/
def fLtB (f g : Frac) : Bool := decide (f.num * (g.den : ℤ) < g.num * (f.den : ℤ))

/-!
### Constants and `ArithUint256` (lines 38-41 and 546-625 of `blockchain.py`)
-/

def HEADER_SIZE : ℕ := 112

def MAX_TARGET : ℕ :=
  0x0000FFFFFFFFFFFFFFFFFFFFFFFFFFFFFFFFFFFFFFFFFFFFFFFFFFFFFFFFFFFF

def GENESIS_BITS : ℕ := 0x1f00ffff

def N_TARGET_TIMESPAN : ℕ := 150

/-- The `bits` property of `ArithUint256` (lines 583-590): it scans
`bin(self._value)[2:]` but tests the *character* `d` for truthiness, which
every character satisfies, so it returns on the first iteration with
`len(bin(v)[2:]) + 1`; for `v = 0` the string is `"0"` and the result is 2.
(`len(bin(v)[2:])` is `⌊log₂ v⌋ + 1` for `v > 0`.) -/
def aBits (v : ℕ) : ℕ := (if v = 0 then 1 else nlog2 v + 1) + 1

/-- The `low64` property (lines 592-594): `self._value & 0xffffffffffffffff`. -/
def low64 (v : ℕ) : ℕ := v &&& 0xffffffffffffffff

/-- Embeds `_calculate_compact(negative=False)` (lines 596-612).  The first
`assert (compact & ~0x007fffff) == 0` holds (for a nonnegative Python int)
exactly when `compact < 0x800000`; the second is `size < 256`.  A failing
`assert` raises `AssertionError`. -/
def calcCompact (v : ℕ) : Except PyErr ℕ :=
  let size := (aBits v + 7) / 8
  let compact :=
    if size ≤ 3 then low64 v <<< (8 * (3 - size))
    else low64 (v >>> (8 * (size - 3)))
  let compact2 := if compact &&& 0x00800000 ≠ 0 then compact >>> 8 else compact
  let size2 := if compact &&& 0x00800000 ≠ 0 then size + 1 else size
  if 0x800000 ≤ compact2 then Except.error PyErr.assertionError
  else if 256 ≤ size2 then Except.error PyErr.assertionError
  else Except.ok (compact2 ||| (size2 <<< 24))

/-- Embeds `from_compact` / `SetCompact` (lines 556-567). -/
def from_compact (compact : ℕ) : ℕ :=
  let size := compact >>> 24
  let word := compact &&& 0x007fffff
  if size ≤ 3 then word >>> (8 * (3 - size))
  else word <<< (8 * (size - 3))

/-- Embeds `ArithUint256.__mul__` with an int argument (lines 614-616):
`(self._value * x) % 2 ** 256`. -/
def auMul (v x : ℕ) : ℕ := (v * x) % 2 ^ 256

/-- Embeds `ArithUint256.__truediv__` with a positive int argument (lines 618-619):
`int(self._value / x)` — CPython true division of two ints is the exact
quotient correctly rounded to binary64, and `int()` truncates toward zero. -/
def auDiv (v x : ℕ) : ℤ := ftrunc (pyIntTrueDiv (v : ℤ) x)

/-!
### Header codec (`serialize_header` / `deserialize_header`, lines 49-74)
-/

/-- A block header as produced by `deserialize_header`: integer fields are
u32 values, the hash fields are 32-byte sequences held in display
(big-endian) order — `hash_encode` reverses the on-disk little-endian byte
order, and `rev_hex` reverses it back on serialization. -/
structure RawHeader where
  version : ℕ
  prev_block_hash : List ℕ
  merkle_root : List ℕ
  claim_trie_root : List ℕ
  timestamp : ℕ
  bits : ℕ
  nonce : ℕ
  block_height : ℤ
  deriving DecidableEq, Repr

/-- Modelled from the spec: `int_to_hex(n, 4)` (from the `bitcoin` module,
which is not under `src/`) encodes an integer as 4 little-endian bytes
(§4.1 and §6: "little-endian integers"); here at the byte level, i.e.
after `bfh`. -/
def le32 (n : ℕ) : List ℕ :=
  [n % 256, n / 256 % 256, n / 65536 % 256, n / 16777216 % 256]

/-- Modelled from the spec: the `hex_to_int` helper of `deserialize_header`
reads a little-endian byte string as an integer (it reverses the bytes and
parses them big-endian). -/
def de32 (l : List ℕ) : ℕ := l.foldr (fun b acc => b + 256 * acc) 0

/-- Embeds `serialize_header` (lines 49-57) at the byte level: concatenation of the
little-endian integers and the byte-reversed (`rev_hex`) hash fields. -/
def serialize_header (h : RawHeader) : List ℕ :=
  le32 h.version ++ (h.prev_block_hash.reverse ++ (h.merkle_root.reverse ++
    (h.claim_trie_root.reverse ++ (le32 h.timestamp ++ (le32 h.bits ++ le32 h.nonce)))))

/-- Embeds `deserialize_header` (lines 59-74): empty input or a length other than
`HEADER_SIZE` raises `InvalidHeader`; otherwise the seven fields are parsed
(`hash_encode` reversing each 32-byte hash into display order) and
`block_height` is attached. -/
def deserialize_header (s : List ℕ) (height : ℤ) : Except PyErr RawHeader :=
  if s = [] then Except.error PyErr.invalidHeader
  else if s.length ≠ HEADER_SIZE then Except.error PyErr.invalidHeader
  else Except.ok
    { version := de32 (s.take 4)
      prev_block_hash := ((s.drop 4).take 32).reverse
      merkle_root := ((s.drop 36).take 32).reverse
      claim_trie_root := ((s.drop 68).take 32).reverse
      timestamp := de32 ((s.drop 100).take 4)
      bits := de32 ((s.drop 104).take 4)
      nonce := de32 ((s.drop 108).take 4)
      block_height := height }

/-- The reads in `Blockchain.read_header` (lines 352-359): a short read
raises, an all-zero 112-byte record is returned as `None` *before* any
deserialization is attempted, and any other record is deserialized. -/
def recordToHeader (bytes : List ℕ) (height : ℤ) : Except PyErr (Option RawHeader) :=
  if bytes.length < HEADER_SIZE then Except.error PyErr.exception
  else if bytes = List.replicate HEADER_SIZE 0 then Except.ok none
  else (deserialize_header bytes height).map some

/-- A header is well-formed when its integer fields are u32 values and its
hash fields are 32 bytes long (as every header produced by
`deserialize_header` is). -/
def WellFormedHeader (h : RawHeader) : Prop :=
  h.version < 2 ^ 32 ∧ h.timestamp < 2 ^ 32 ∧ h.bits < 2 ^ 32 ∧ h.nonce < 2 ^ 32 ∧
    h.prev_block_hash.length = 32 ∧ h.merkle_root.length = 32 ∧
    h.claim_trie_root.length = 32

/-!
### `hash_header` (lines 76-81): header dicts and in-place mutation
-/

/-- A header dict as handled by `hash_header`: the `prev_block_hash` key may
be missing or `None` (`header.get('prev_block_hash') is None`); hash fields
are display hex strings at this level. -/
structure HeaderD where
  version : ℕ
  prev_block_hash : Option String
  merkle_root : String
  claim_trie_root : String
  timestamp : ℕ
  bits : ℕ
  nonce : ℕ
  block_height : ℤ
  deriving DecidableEq, Repr

/-- The 64-character all-zero hex string (`'0' * 64`, which is the same
string as `'00' * 32`). -/
def zeros64 : String := String.mk (List.replicate 64 '0')

/-- Embeds `hash_header` (lines 76-81).  Python mutates the dict in place —
`header['prev_block_hash'] = '00'*32` when the field is absent — so the
second component of the result is the dict as the caller sees it after the
call.  The digest is `hash_raw_header(serialize_header(header))` (double
SHA-256 of the hex serialization); the hashing and hex helpers live outside
`src/`, so that composite is the opaque parameter `hrh`. -/
def hash_header (hrh : HeaderD → String) (header : Option HeaderD) :
    String × Option HeaderD :=
  match header with
  | none => (zeros64, none)
  | some h =>
    let h2 := if h.prev_block_hash = none
      then { h with prev_block_hash := some zeros64 } else h
    (hrh h2, some h2)

/-!
### Chain model (`class Blockchain`, main chain)
-/

/-- A fully-populated header as seen by the chain-level routines (every
header reaching them carries all seven fields plus `block_height`, as
produced by `deserialize_header`); hashes are display hex strings. -/
structure Header where
  version : ℕ
  prev_block_hash : String
  merkle_root : String
  claim_trie_root : String
  timestamp : ℕ
  bits : ℕ
  nonce : ℕ
  block_height : ℤ
  deriving DecidableEq, Repr

/-- The state of a main-chain `Blockchain` instance (`parent_id is None`,
`forkpoint = 0`): `size` records in the backing file, `slot i` the parsed
record at offset `i*112` (`none` for the all-zero sentinel), together with
the consumed network profile (`constants.net`): the checkpoint list, the
genesis hash and the testnet flag. -/
structure Chain where
  size : ℕ
  slot : ℕ → Option Header
  checkpoints : List (String × ℕ)
  genesis : String
  testnet : Bool

/-- Embeds `height()` (lines 198-199) with `forkpoint = 0`:
`forkpoint + size - 1`. -/
def Chain.height (c : Chain) : ℤ := (c.size : ℤ) - 1

/-- Modelled from the spec: `constants.net.max_checkpoint()` is not under
`src/`; §3 says the checkpoint list holds one `(hash, target)` pair per
2016-header chunk up to `max_checkpoint`, so the last checkpointed height is
`2016 * len(checkpoints) - 1`. -/
def maxCheckpoint (c : Chain) : ℤ := 2016 * (c.checkpoints.length : ℤ) - 1

/-- Embeds `read_header` (lines 341-359) on a main chain: negative heights and
heights above the tip return `None`; the `height < forkpoint` parent
delegation is unreachable with `forkpoint = 0`; otherwise the slot's record
is returned (`None` for the all-zero sentinel, cf. `recordToHeader`; a short
read cannot happen for `0 ≤ height ≤ self.height()`). -/
def read_header (c : Chain) (height : ℤ) : Option Header :=
  if height < 0 then none
  else if height > c.height then none
  else c.slot height.toNat

/-- Python list indexing `l[i]`: negative indices wrap around once, anything
still out of range raises `IndexError`. -/
def pyGet {α : Type} (l : List α) (i : ℤ) : Except PyErr α :=
  let j := if i < 0 then i + l.length else i
  if h : 0 ≤ j ∧ j.toNat < l.length then Except.ok (l.get ⟨j.toNat, h.2⟩)
  else Except.error PyErr.indexError

/-- Embeds `get_hash` (lines 361-379).  `hh` abstracts `hash_header` applied to a
complete header (the hashing primitives live outside `src/`). -/
def get_hash (c : Chain) (hh : Header → String) (height : ℤ) :
    Except PyErr String :=
  if height = -1 then Except.ok zeros64
  else if height = 0 then Except.ok c.genesis
  else if height ≤ maxCheckpoint c ∧ (height + 1) % 2016 = 0 then
    (pyGet c.checkpoints (Int.fdiv height 2016)).map Prod.fst
  else
    match read_header c height with
    | none => Except.error (PyErr.missingHeader height)
    | some hd => Except.ok (hh hd)

/-- Embeds `check_bits` (lines 454-460) as a Boolean test (the Python function
raises `AssertionError` exactly when this is false). -/
def checkBitsB (bits : ℕ) : Bool :=
  decide (0x03 ≤ (bits >>> 24) &&& 0xff) && decide ((bits >>> 24) &&& 0xff ≤ 0x1f) &&
    decide (0x8000 ≤ bits &&& 0xffffff) && decide (bits &&& 0xffffff ≤ 0x7fffff)

/-- Embeds `bits_to_target` (lines 462-469); failures raise a plain `Exception`. -/
def bits_to_target (bits : ℕ) : Except PyErr ℕ :=
  let bitsN := (bits >>> 24) &&& 0xff
  if ¬ (0x03 ≤ bitsN ∧ bitsN ≤ 0x1f) then Except.error PyErr.exception
  else
    let bitsBase := bits &&& 0xffffff
    if ¬ (0x8000 ≤ bitsBase ∧ bitsBase ≤ 0x7fffff) then Except.error PyErr.exception
    else Except.ok (bitsBase <<< (8 * (bitsN - 3)))

/-- The retargeting arithmetic written out identically in `get_target`
(lines 397-412) and `get_target2` (lines 434-449): under CPython float
semantics (`/` is true division producing binary64 doubles), compute
`nModulatedTimespan`, clamp it, and return
`int(((bnOld * nModulatedTimespan) % 2**256) / nModulatedTimespan)` —
`ArithUint256.__mul__` followed by `__truediv__`.  `int op float` converts
the int to a double (one rounding) and then applies the float operation
(one more rounding); the comparisons and the clamp are exact. -/
def retargetDiv (nActualTimespan : ℤ) (bnOld : ℕ) : ℤ :=
  let nModulatedTimespan : Frac :=
    pyFSub (pyIntToFloat 150) (pyIntTrueDiv (nActualTimespan - 150) 8)
  let nMinTimespan : Frac := pyFSub (pyIntToFloat 150) (pyIntTrueDiv 150 8)
  let nMaxTimespan : Frac := pyFAdd (pyIntToFloat 150) (pyIntTrueDiv 150 2)
  let nMod : Frac :=
    if fLtB nModulatedTimespan nMinTimespan then nMinTimespan
    else if fLtB nMaxTimespan nModulatedTimespan then nMaxTimespan
    else nModulatedTimespan
  let prod : Frac := pymodF (pyFMul (pyIntToFloat (bnOld : ℤ)) nMod) (2 ^ 256)
  ftrunc (pyFDiv prod nMod)

/-- Embeds `get_target2` (lines 417-452), returning `(bits, target)`.
`check_bits` raises `AssertionError` on a malformed `bits` field, and
`first.get('timestamp')` raises `AttributeError` when the preceding header
is absent (`read_header` returned `None`); note neither is a
`MissingHeader`.  The float arithmetic (`/` is true division!) follows
CPython binary64 semantics through the `Frac` model: `int op float`
converts the int (one rounding) and then applies the float op (one
rounding); `ArithUint256.__mul__` is `(v * x) % 2**256` and
`__truediv__` is `int(v / x)`.  The final `bnNew.compact` is the
`_calculate_compact` property, whose asserts can raise. -/
def get_target2 (c : Chain) (index : ℤ) (last : Header) :
    Except PyErr (ℕ × ℕ) :=
  if index = -1 then Except.ok (GENESIS_BITS, MAX_TARGET)
  else if index = 0 then Except.ok (GENESIS_BITS, MAX_TARGET)
  else
    let first := read_header c (index - 1)
    let bits := last.bits
    if ¬ checkBitsB bits then Except.error PyErr.assertionError
    else
      match first with
      | none => Except.error PyErr.attributeError
      | some f =>
        let nActualTimespan : ℤ := (last.timestamp : ℤ) - (f.timestamp : ℤ)
        let bnOld : ℕ := from_compact bits
        -- lines 436-449: the shared retargeting block, see `retargetDiv`;
        -- the quotient of the nonnegative product by the positive clamped
        -- timespan is nonnegative, so `toNat` below is lossless
        let bnNew : ℤ := retargetDiv nActualTimespan bnOld
        let bnNew2 : ℕ := if bnNew > (MAX_TARGET : ℤ) then MAX_TARGET else bnNew.toNat
        (calcCompact bnNew2).map (fun cb => (cb, bnNew2))

/-- Embeds `verify_header` (lines 209-222).  `powh` and `hh` abstract
`pow_hash_header` and `hash_header` (hash primitives outside `src/`).
`pow_hash_header` is computed but unused; the PoW-vs-target and bits
comparisons are commented out in the source, so `target` and `bits` are
never consulted and mainnet falls through to the same success as testnet.
`if expected_header_hash:` is false both for `None` and for the empty
string. -/
def verify_header (powh hh : Header → String) (header : Header)
    (prev_hash : String) (target bits : ℕ) (expected : Option String)
    (testnet : Bool) : Except PyErr Unit :=
  let _hash := powh header
  let hashFails : Bool := match expected with
    | some e => !(e == "") && !(e == hh header)
    | none => false
  if hashFails then Except.error PyErr.exception
  else if ¬ (prev_hash = header.prev_block_hash) then Except.error PyErr.exception
  else Except.ok ()

/-- Embeds `can_connect` (lines 481-505).  The bare `except:` around `get_hash`
catches every exception; the `except MissingHeader` around `get_target2`
catches only `MissingHeader`, so any other error from `get_target2`
propagates out of `can_connect`; `verify_header` is wrapped in
`except BaseException`. -/
def can_connect (c : Chain) (powh hh : Header → String)
    (header : Option Header) (check_height : Bool) : Except PyErr Bool :=
  match header with
  | none => Except.ok false
  | some h =>
    let height := h.block_height
    if check_height && !(c.height == height - 1) then Except.ok false
    else if height = 0 then Except.ok (hh h == c.genesis)
    else
      match get_hash c hh (height - 1) with
      | Except.error _ => Except.ok false
      | Except.ok prev_hash =>
        if ¬ (prev_hash = h.prev_block_hash) then Except.ok false
        else
          match get_target2 c height h with
          | Except.error (PyErr.missingHeader _) => Except.ok false
          | Except.error PyErr.missingHeaderBare => Except.ok false
          | Except.error e => Except.error e
          | Except.ok (bits, target) =>
            match verify_header powh hh h prev_hash target bits none c.testnet with
            | Except.error _ => Except.ok false
            | Except.ok _ => Except.ok true

/-- Embeds `get_target` (lines 381-415).  Testnet returns `0`; `index == -1`
returns `MAX_TARGET`; an index inside the checkpoint list returns the
stored target.  Otherwise the retargeting arithmetic runs (same float
pipeline as `get_target2`, with `bits_to_target` validating the bits) and
the function executes `return bnNew.compact(), bnNew._value`: `compact` is
a `@property`, so `bnNew.compact` is an `int`, and *calling* it raises
`TypeError` — after the property body (`_calculate_compact`) has been
evaluated.  So this branch never returns. -/
def get_target (c : Chain) (index : ℤ) : Except PyErr ℕ :=
  if c.testnet then Except.ok 0
  else if index = -1 then Except.ok MAX_TARGET
  else if index < (c.checkpoints.length : ℤ) then
    (pyGet c.checkpoints index).map Prod.snd
  else
    match read_header c (index * 2016), read_header c (index * 2016 + 2015) with
    | some f, some last =>
      match bits_to_target last.bits with
      | Except.error e => Except.error e
      | Except.ok _target =>
        let nActualTimespan : ℤ := (last.timestamp : ℤ) - (f.timestamp : ℤ)
        let bnOld : ℕ := from_compact last.bits
        -- lines 399-412: the shared retargeting block, see `retargetDiv`
        let bnNew : ℤ := retargetDiv nActualTimespan bnOld
        let bnNew2 : ℕ := if bnNew > (MAX_TARGET : ℤ) then MAX_TARGET else bnNew.toNat
        match calcCompact bnNew2 with
        | Except.error e => Except.error e
        | Except.ok _cb => Except.error PyErr.typeError
    | _, _ => Except.error PyErr.missingHeaderBare

/-- The modulated timespan exactly as C1 words it: truncating integer
division (`Int.tdiv`), clamped to `[N_TARGET_TIMESPAN·7/8,
N_TARGET_TIMESPAN·3/2]` (bounds with the same truncating division). -/
def specModulated (nActual : ℤ) : ℤ :=
  let m := (N_TARGET_TIMESPAN : ℤ) - Int.tdiv (nActual - N_TARGET_TIMESPAN) 8
  let lo := Int.tdiv ((N_TARGET_TIMESPAN : ℤ) * 7) 8
  let hi := Int.tdiv ((N_TARGET_TIMESPAN : ℤ) * 3) 2
  if m < lo then lo else if hi < m then hi else m

/-- The new target exactly as C1 words it: `(old · modulated) / modulated`,
both operations modulo `2^256` with truncating division, capped at
`MAX_TARGET`. -/
def specNewTarget (nActual : ℤ) (old : ℕ) : ℕ :=
  let m := (specModulated nActual).toNat
  let n := old * m % 2 ^ 256 / m
  if n > MAX_TARGET then MAX_TARGET else n

theorem log2Aux_eq (fuel : ℕ) : ∀ n, n < 2 ^ fuel → log2Aux fuel n = Nat.log2 n := by
  induction fuel with
  | zero =>
    intro n hn
    have hn0 : n = 0 := by
      simp only [pow_zero] at hn
      omega
    subst hn0
    conv_rhs => rw [Nat.log2]
    simp [log2Aux]
  | succ f ih =>
    intro n hn
    show (if n ≥ 2 then log2Aux f (n / 2) + 1 else 0) = Nat.log2 n
    conv_rhs => rw [Nat.log2]
    by_cases h : n ≥ 2
    · have hh : n / 2 < 2 ^ f := by
        rw [pow_succ] at hn
        omega
      rw [if_pos h, if_pos h, ih (n/2) hh]
    · rw [if_neg h, if_neg h]

theorem nlog2_eq (n : ℕ) : nlog2 n = Nat.log2 n :=
  log2Aux_eq (n + 1) n (Nat.lt_of_lt_of_le (Nat.lt_two_pow n)
    (Nat.pow_le_pow_right (by norm_num) (Nat.le_succ n)))

theorem rnd_exact (a b : ℕ) (hb : 0 < b) (hdvd : b ∣ a) : rnd a b = a / b := by
  have hr : a % b = 0 := Nat.mod_eq_zero_of_dvd hdvd
  simp [rnd, hr, hb]

theorem pow2le_iff (e : ℤ) (a b : ℕ) (hb : 0 < b) :
    pow2le e a b = true ↔ (2 : ℚ) ^ e ≤ (a : ℚ) / b := by
  have hbq : (0 : ℚ) < b := by exact_mod_cast hb
  unfold pow2le
  by_cases he : 0 ≤ e
  · simp only [he, if_pos, decide_eq_true_eq]
    have h2 : (2 : ℚ) ^ e = (2 : ℚ) ^ e.toNat := by
      rw [← zpow_natCast]
      congr 1
      omega
    rw [h2, le_div_iff hbq]
    constructor
    · intro h
      calc (2 : ℚ) ^ e.toNat * b = ((b * 2 ^ e.toNat : ℕ) : ℚ) := by push_cast; ring
        _ ≤ a := by exact_mod_cast h
    · intro h
      have : ((b * 2 ^ e.toNat : ℕ) : ℚ) ≤ a := by
        calc ((b * 2 ^ e.toNat : ℕ) : ℚ) = (2 : ℚ) ^ e.toNat * b := by push_cast; ring
          _ ≤ a := h
      exact_mod_cast this
  · simp only [he, if_neg, not_false_iff, decide_eq_true_eq]
    have h2 : (2 : ℚ) ^ e = ((2 : ℚ) ^ (-e).toNat)⁻¹ := by
      rw [← zpow_natCast (2 : ℚ) (-e).toNat, ← zpow_neg]
      congr 1
      omega
    have hpow : (0 : ℚ) < (2 : ℚ) ^ (-e).toNat := by positivity
    rw [h2, inv_eq_one_div, div_le_div_iff hpow hbq]
    constructor
    · intro h
      calc (1 : ℚ) * b = b := by ring
        _ ≤ a * 2 ^ (-e).toNat := by
            have h3 : ((b : ℕ) : ℚ) ≤ ((a * 2 ^ (-e).toNat : ℕ) : ℚ) := by exact_mod_cast h
            calc (b : ℚ) ≤ ((a * 2 ^ (-e).toNat : ℕ) : ℚ) := h3
              _ = a * 2 ^ (-e).toNat := by push_cast; ring
    · intro h
      have : (b : ℚ) ≤ ((a * 2 ^ (-e).toNat : ℕ) : ℚ) := by
        calc (b : ℚ) = 1 * b := by ring
          _ ≤ a * 2 ^ (-e).toNat := h
          _ = ((a * 2 ^ (-e).toNat : ℕ) : ℚ) := by push_cast; ring
      exact_mod_cast this

theorem flogQ_correct (a b : ℕ) (ha : 0 < a) (hb : 0 < b) :
    (2 : ℚ) ^ flogQ a b ≤ (a : ℚ) / b ∧ (a : ℚ) / b < 2 ^ (flogQ a b + 1) := by
  have haq : (0 : ℚ) < a := by exact_mod_cast ha
  have hbq : (0 : ℚ) < b := by exact_mod_cast hb
  set la := nlog2 a with hla
  set lb := nlog2 b with hlb
  have ha1 : (2 : ℕ) ^ la ≤ a := by
    rw [hla, nlog2_eq]
    exact Nat.log2_self_le ha.ne'
  have ha2 : a < 2 ^ (la + 1) := by
    rw [hla, nlog2_eq]
    exact Nat.lt_log2_self
  have hb1 : (2 : ℕ) ^ lb ≤ b := by
    rw [hlb, nlog2_eq]
    exact Nat.log2_self_le hb.ne'
  have hb2 : b < 2 ^ (lb + 1) := by
    rw [hlb, nlog2_eq]
    exact Nat.lt_log2_self
  set e0 : ℤ := (la : ℤ) - (lb : ℤ) with he0
  -- a/b < 2^(e0+1), by cross-multiplication: a < 2^(la+1) = 2^(e0+1)·2^lb ≤ 2^(e0+1)·b
  have hub : (a : ℚ) / b < 2 ^ (e0 + 1) := by
    rw [div_lt_iff hbq]
    have h1 : (a : ℚ) < 2 ^ (la + 1) := by exact_mod_cast ha2
    have h2 : ((2 : ℚ)) ^ lb ≤ b := by exact_mod_cast hb1
    have hsplit : (2 : ℚ) ^ (la + 1) = 2 ^ (e0 + 1) * 2 ^ lb := by
      rw [← zpow_natCast (2 : ℚ) (la + 1), ← zpow_natCast (2 : ℚ) lb,
        ← zpow_add₀ (by norm_num : (2:ℚ) ≠ 0)]
      congr 1
      push_cast
      omega
    have hpos : (0 : ℚ) < 2 ^ (e0 + 1) := by
      exact zpow_pos (by norm_num) _
    calc (a : ℚ) < 2 ^ (la + 1) := h1
      _ = 2 ^ (e0 + 1) * 2 ^ lb := hsplit
      _ ≤ 2 ^ (e0 + 1) * b := by
          exact mul_le_mul_of_nonneg_left h2 (le_of_lt hpos)
  -- 2^(e0-1) ≤ a/b: 2^(e0-1)·b ≤ 2^(e0-1)·2^(lb+1) = 2^la ≤ a
  have hlbd : (2 : ℚ) ^ (e0 - 1) ≤ (a : ℚ) / b := by
    rw [le_div_iff hbq]
    have h1 : ((2 : ℚ)) ^ la ≤ a := by exact_mod_cast ha1
    have h2 : (b : ℚ) ≤ 2 ^ (lb + 1) := by
      have := hb2
      have h3 : (b : ℚ) < 2 ^ (lb + 1) := by exact_mod_cast this
      exact le_of_lt h3
    have hsplit : (2 : ℚ) ^ (e0 - 1) * 2 ^ (lb + 1) = 2 ^ la := by
      rw [← zpow_natCast (2 : ℚ) (lb + 1), ← zpow_natCast (2 : ℚ) la,
        ← zpow_add₀ (by norm_num : (2:ℚ) ≠ 0)]
      congr 1
      push_cast
      omega
    have hpos : (0 : ℚ) < 2 ^ (e0 - 1) := by
      exact zpow_pos (by norm_num) _
    calc (2 : ℚ) ^ (e0 - 1) * b ≤ 2 ^ (e0 - 1) * 2 ^ (lb + 1) := by
          exact mul_le_mul_of_nonneg_left h2 (le_of_lt hpos)
      _ = 2 ^ la := hsplit
      _ ≤ a := h1
  have hform : flogQ a b = if pow2le e0 a b then e0 else e0 - 1 := by
    simp only [flogQ]
  rw [hform]
  by_cases hle : pow2le e0 a b = true
  · rw [if_pos hle]
    exact ⟨(pow2le_iff e0 a b hb).1 hle, hub⟩
  · rw [if_neg hle]
    constructor
    · simpa using hlbd
    · have h5 := (pow2le_iff e0 a b hb).not.1 hle
      push_neg at h5
      simpa using h5

theorem flog_unique {v : ℚ} {f g : ℤ} (hf1 : (2:ℚ)^f ≤ v) (hf2 : v < 2^(f+1))
    (hg1 : (2:ℚ)^g ≤ v) (hg2 : v < 2^(g+1)) : f = g := by
  by_contra hne
  rcases lt_or_gt_of_ne hne with h | h
  · have hle : (2:ℚ)^(f+1) ≤ 2^g := zpow_le_zpow_right₀ one_le_two (by omega)
    linarith
  · have hle : (2:ℚ)^(g+1) ≤ 2^f := zpow_le_zpow_right₀ one_le_two (by omega)
    linarith

theorem flPos_exact (a b m : ℕ) (E : ℤ) (ha : 0 < a) (hb : 0 < b) (hm : 0 < m)
    (hm53 : m < 2 ^ 53) (hv : (a : ℚ) / b = (m : ℚ) * 2 ^ E) :
    flPos a b = (a : ℚ) / b := by
  have hbq : (0 : ℚ) < b := by exact_mod_cast hb
  set L := Nat.log2 m with hL
  have hL1 : (2 : ℕ) ^ L ≤ m := Nat.log2_self_le hm.ne'
  have hL2 : m < 2 ^ (L + 1) := Nat.lt_log2_self
  have hL52 : L ≤ 52 := by
    have := (Nat.log2_lt hm.ne').2 hm53
    omega
  -- the unique floor-log2 of the value is E + L
  have hflog : flogQ a b = E + (L : ℤ) := by
    have hc := flogQ_correct a b ha hb
    have hv1 : (2 : ℚ) ^ (E + (L : ℤ)) ≤ (a : ℚ) / b := by
      rw [hv]
      have h1 : ((2 : ℚ)) ^ L ≤ m := by exact_mod_cast hL1
      have hsplit : (2 : ℚ) ^ (E + (L : ℤ)) = 2 ^ (L : ℤ) * 2 ^ E := by
        rw [← zpow_add₀ (by norm_num : (2:ℚ) ≠ 0)]
        congr 1
        omega
      rw [hsplit, zpow_natCast]
      have hp : (0 : ℚ) < 2 ^ E := zpow_pos (by norm_num) _
      exact mul_le_mul_of_nonneg_right h1 (le_of_lt hp)
    have hv2 : (a : ℚ) / b < 2 ^ (E + (L : ℤ) + 1) := by
      rw [hv]
      have h1 : (m : ℚ) < 2 ^ (L + 1) := by exact_mod_cast hL2
      have hsplit : (2 : ℚ) ^ (E + (L : ℤ) + 1) = 2 ^ ((L : ℤ) + 1) * 2 ^ E := by
        rw [← zpow_add₀ (by norm_num : (2:ℚ) ≠ 0)]
        congr 1
        omega
      have h2 : (2 : ℚ) ^ ((L : ℤ) + 1) = 2 ^ (L + 1) := by
        have hLL : ((L : ℤ) + 1) = ((L + 1 : ℕ) : ℤ) := by omega
        rw [hLL, zpow_natCast]
      rw [hsplit, h2]
      have hp : (0 : ℚ) < 2 ^ E := zpow_pos (by norm_num) _
      exact mul_lt_mul_of_pos_right h1 hp
    exact flog_unique hc.1 hc.2 hv1 hv2
  set M : ℕ := m * 2 ^ (52 - L) with hM
  have hMQ : (M : ℚ) * 2 ^ (E + (L : ℤ) - 52) = (m : ℚ) * 2 ^ E := by
    have hMc : (M : ℚ) = (m : ℚ) * 2 ^ ((52 - L : ℕ)) := by
      rw [hM]
      push_cast
      ring
    rw [hMc, ← zpow_natCast (2:ℚ) (52 - L), mul_assoc,
      ← zpow_add₀ (by norm_num : (2:ℚ) ≠ 0)]
    have hexp : ((52 - L : ℕ) : ℤ) + (E + (L : ℤ) - 52) = E := by omega
    rw [hexp]
  have hMval : ((M : ℚ)) * 2 ^ (E + (L : ℤ) - 52) = (a : ℚ) / b := by
    rw [hMQ, hv]
  unfold flPos
  rw [hflog]
  by_cases he : 0 ≤ E + (L : ℤ) - 52
  · rw [if_pos he]
    set t : ℕ := (E + (L : ℤ) - 52).toNat with ht
    have htE : (t : ℤ) = E + (L : ℤ) - 52 := by omega
    -- a = M * (b * 2^t)
    have key : a = M * (b * 2 ^ t) := by
      have hq : (a : ℚ) = (M : ℚ) * 2 ^ (E + (L : ℤ) - 52) * b := by
        rw [hMval]
        field_simp
      have hq2 : (a : ℚ) = ((M * (b * 2 ^ t) : ℕ) : ℚ) := by
        rw [hq, ← htE, zpow_natCast]
        push_cast
        ring
      exact_mod_cast hq2
    have hbt : 0 < b * 2 ^ t := by positivity
    have hdvd : b * 2 ^ t ∣ a := ⟨M, by rw [key]; ring⟩
    rw [rnd_exact a (b * 2 ^ t) hbt hdvd]
    have hdiv : a / (b * 2 ^ t) = M := by
      rw [key, Nat.mul_div_cancel _ hbt]
    rw [hdiv, ← hMval, ← htE, zpow_natCast]
  · rw [if_neg he]
    set k : ℕ := (-(E + (L : ℤ) - 52)).toNat with hk
    have hkE : (k : ℤ) = -(E + (L : ℤ) - 52) := by omega
    have h2k : (2 : ℚ) ^ (E + (L : ℤ) - 52) * 2 ^ k = 1 := by
      rw [← zpow_natCast (2 : ℚ) k, ← zpow_add₀ (by norm_num : (2:ℚ) ≠ 0)]
      have hz : E + (L : ℤ) - 52 + k = 0 := by omega
      rw [hz, zpow_zero]
    -- a * 2^k = M * b
    have key : a * 2 ^ k = M * b := by
      have hq : (a : ℚ) = (M : ℚ) * 2 ^ (E + (L : ℤ) - 52) * b := by
        rw [hMval]
        field_simp
      have hq2 : ((a * 2 ^ k : ℕ) : ℚ) = ((M * b : ℕ) : ℚ) := by
        push_cast
        rw [hq]
        calc (M : ℚ) * 2 ^ (E + (L : ℤ) - 52) * b * 2 ^ k
            = (M : ℚ) * b * (2 ^ (E + (L : ℤ) - 52) * 2 ^ k) := by ring
          _ = (M : ℚ) * b := by rw [h2k]; ring
      exact_mod_cast hq2
    have hdvd : b ∣ a * 2 ^ k := ⟨M, by rw [key]; ring⟩
    rw [rnd_exact (a * 2 ^ k) b hb hdvd]
    have hdiv : a * 2 ^ k / b = M := by
      rw [key, Nat.mul_div_cancel _ hb]
    rw [hdiv, div_eq_iff (by positivity : ((2:ℚ) ^ k) ≠ 0), ← hMval]
    calc (M : ℚ) = M * (2 ^ (E + (L : ℤ) - 52) * 2 ^ k) := by rw [h2k]; ring
      _ = (M : ℚ) * 2 ^ (E + (L : ℤ) - 52) * 2 ^ k := by ring

theorem flF_den_pos (f : Frac) : 0 < (flF f).den := by
  unfold flF
  by_cases h0 : f.num = 0
  · simp [h0]
  · rw [if_neg h0]
    by_cases he : 0 ≤ flogQ f.num.natAbs f.den - 52
    · rw [if_pos he]
      exact Nat.one_pos
    · rw [if_neg he]
      exact Nat.two_pow_pos _

theorem fval_flF (f : Frac) (h : f.num ≠ 0) :
    fval (flF f) = (if f.num < 0 then (-1:ℚ) else 1) * flPos f.num.natAbs f.den := by
  unfold flF flPos fval
  rw [if_neg h]
  by_cases he : 0 ≤ flogQ f.num.natAbs f.den - 52
  · rw [if_pos he, if_pos he]
    by_cases hs : f.num < 0 <;> simp only [hs, if_pos, if_neg, ite_true, ite_false] <;>
      push_cast <;> ring
  · rw [if_neg he, if_neg he]
    by_cases hs : f.num < 0 <;> simp only [hs, if_pos, if_neg, ite_true, ite_false] <;>
      push_cast <;> ring

/-- Rounding is exact on binary64-representable values (integer significand
below `2^53` times a power of two). -/
theorem flF_exact (f : Frac) (m E : ℤ) (hden : 0 < f.den) (hm : m.natAbs < 2 ^ 53)
    (hv : fval f = (m : ℚ) * 2 ^ E) : fval (flF f) = fval f := by
  have hdq : (0:ℚ) < (f.den : ℚ) := by exact_mod_cast hden
  by_cases h0 : f.num = 0
  · unfold flF fval
    simp [h0]
  have hapos : 0 < f.num.natAbs := Int.natAbs_pos.2 h0
  by_cases hneg : f.num < 0
  · have hvneg : fval f < 0 := by
      unfold fval
      apply div_neg_of_neg_of_pos _ hdq
      exact_mod_cast hneg
    have hmneg : m < 0 := by
      by_contra hc
      push_neg at hc
      have hge : (0:ℚ) ≤ fval f := by
        rw [hv]
        have h1 : (0:ℚ) ≤ (m:ℚ) := by exact_mod_cast hc
        have h2 : (0:ℚ) < 2 ^ E := zpow_pos (by norm_num) _
        positivity
      linarith
    have h4 : ((f.num.natAbs : ℕ) : ℚ) = -(f.num : ℚ) := by
      have h3 : ((f.num.natAbs : ℕ) : ℤ) = -f.num := by omega
      calc ((f.num.natAbs : ℕ) : ℚ) = (((f.num.natAbs : ℕ) : ℤ) : ℚ) :=
            (Int.cast_natCast _).symm
        _ = ((-f.num : ℤ) : ℚ) := by exact_mod_cast h3
        _ = -(f.num : ℚ) := by push_cast; ring
    have habs : ((f.num.natAbs : ℚ)) / f.den = -fval f := by
      unfold fval
      rw [h4, neg_div]
    have hval : ((f.num.natAbs : ℚ)) / f.den = ((-m).toNat : ℚ) * 2 ^ E := by
      rw [habs, hv]
      have h5 : (((-m).toNat : ℕ) : ℚ) = -(m : ℚ) := by
        have h6 : (((-m).toNat : ℕ) : ℤ) = -m := by omega
        calc (((-m).toNat : ℕ) : ℚ) = ((((-m).toNat : ℕ) : ℤ) : ℚ) :=
              (Int.cast_natCast _).symm
          _ = ((-m : ℤ) : ℚ) := by exact_mod_cast h6
          _ = -(m : ℚ) := by push_cast; ring
      rw [h5]
      ring
    rw [fval_flF f h0, if_pos hneg,
      flPos_exact f.num.natAbs f.den (-m).toNat E hapos hden (by omega) (by omega) hval,
      habs]
    ring
  · have hpos : 0 < f.num := by omega
    have hvpos : 0 < fval f := by
      unfold fval
      apply div_pos _ hdq
      exact_mod_cast hpos
    have hmpos : 0 < m := by
      by_contra hc
      push_neg at hc
      have hle : fval f ≤ 0 := by
        rw [hv]
        have h1 : (m:ℚ) ≤ 0 := by exact_mod_cast hc
        have h2 : (0:ℚ) < 2 ^ E := zpow_pos (by norm_num) _
        nlinarith
      linarith
    have h4 : ((f.num.natAbs : ℕ) : ℚ) = (f.num : ℚ) := by
      have h3 : ((f.num.natAbs : ℕ) : ℤ) = f.num := by omega
      calc ((f.num.natAbs : ℕ) : ℚ) = (((f.num.natAbs : ℕ) : ℤ) : ℚ) :=
            (Int.cast_natCast _).symm
        _ = (f.num : ℚ) := by exact_mod_cast h3
    have habs : ((f.num.natAbs : ℚ)) / f.den = fval f := by
      unfold fval
      rw [h4]
    have hval : ((f.num.natAbs : ℚ)) / f.den = (m.toNat : ℚ) * 2 ^ E := by
      rw [habs, hv]
      have h5 : ((m.toNat : ℕ) : ℚ) = (m : ℚ) := by
        have h6 : ((m.toNat : ℕ) : ℤ) = m := by omega
        calc ((m.toNat : ℕ) : ℚ) = (((m.toNat : ℕ) : ℤ) : ℚ) :=
              (Int.cast_natCast _).symm
          _ = (m : ℚ) := by exact_mod_cast h6
      rw [h5]
    rw [fval_flF f h0, if_neg hneg,
      flPos_exact f.num.natAbs f.den m.toNat E hapos hden (by omega) (by omega) hval,
      habs]
    ring

theorem fval_fSub (f g : Frac) (hf : 0 < f.den) (hg : 0 < g.den) :
    fval (fSub f g) = fval f - fval g := by
  have hf0 : ((f.den : ℕ) : ℚ) ≠ 0 := by
    have : (0:ℚ) < (f.den : ℚ) := by exact_mod_cast hf
    linarith
  have hg0 : ((g.den : ℕ) : ℚ) ≠ 0 := by
    have : (0:ℚ) < (g.den : ℚ) := by exact_mod_cast hg
    linarith
  unfold fval fSub
  push_cast
  field_simp
  ring

theorem fval_fAdd (f g : Frac) (hf : 0 < f.den) (hg : 0 < g.den) :
    fval (fAdd f g) = fval f + fval g := by
  have hf0 : ((f.den : ℕ) : ℚ) ≠ 0 := by
    have : (0:ℚ) < (f.den : ℚ) := by exact_mod_cast hf
    linarith
  have hg0 : ((g.den : ℕ) : ℚ) ≠ 0 := by
    have : (0:ℚ) < (g.den : ℚ) := by exact_mod_cast hg
    linarith
  unfold fval fAdd
  push_cast
  field_simp

theorem fval_fMul (f g : Frac) (hf : 0 < f.den) (hg : 0 < g.den) :
    fval (fMul f g) = fval f * fval g := by
  have hf0 : ((f.den : ℕ) : ℚ) ≠ 0 := by
    have : (0:ℚ) < (f.den : ℚ) := by exact_mod_cast hf
    linarith
  have hg0 : ((g.den : ℕ) : ℚ) ≠ 0 := by
    have : (0:ℚ) < (g.den : ℚ) := by exact_mod_cast hg
    linarith
  unfold fval fMul
  push_cast
  field_simp

theorem fval_fDiv (f g : Frac) (hf : 0 < f.den) (hg : 0 < g.den) (hgn : 0 < g.num) :
    fval (fDiv f g) = fval f / fval g := by
  have hf0 : ((f.den : ℕ) : ℚ) ≠ 0 := by
    have : (0:ℚ) < (f.den : ℚ) := by exact_mod_cast hf
    linarith
  have hg0 : ((g.den : ℕ) : ℚ) ≠ 0 := by
    have : (0:ℚ) < (g.den : ℚ) := by exact_mod_cast hg
    linarith
  have hgn0 : ((g.num : ℤ) : ℚ) ≠ 0 := by
    have : (0:ℚ) < ((g.num : ℤ) : ℚ) := by exact_mod_cast hgn
    linarith
  have htn : ((g.num.toNat : ℕ) : ℚ) = ((g.num : ℤ) : ℚ) := by
    have h6 : ((g.num.toNat : ℕ) : ℤ) = g.num := by omega
    calc ((g.num.toNat : ℕ) : ℚ) = (((g.num.toNat : ℕ) : ℤ) : ℚ) := (Int.cast_natCast _).symm
      _ = ((g.num : ℤ) : ℚ) := by exact_mod_cast h6
  unfold fval fDiv
  push_cast
  rw [htn]
  field_simp

theorem pymodF_eq_self (f : Frac) (y : ℕ) (hnum : 0 ≤ f.num)
    (hlt : f.num < (y : ℤ) * (f.den : ℤ)) : pymodF f y = f := by
  obtain ⟨n, d⟩ := f
  simp only at hnum hlt
  unfold pymodF
  have hfd : Int.fdiv n ((y:ℤ) * (d : ℤ)) = 0 := by
    rw [Int.fdiv_eq_ediv _ (by positivity)]
    exact Int.ediv_eq_zero_of_lt hnum hlt
  simp [hfd]

theorem ftrunc_eq_of_fval_nat (f : Frac) (n : ℕ) (hden : 0 < f.den)
    (h : fval f = (n : ℚ)) : ftrunc f = (n : ℤ) := by
  have hd : ((f.den : ℕ) : ℚ) ≠ 0 := by
    have : (0:ℚ) < (f.den : ℚ) := by exact_mod_cast hden
    linarith
  have hnum : f.num = (n : ℤ) * (f.den : ℤ) := by
    have h2 : (f.num : ℚ) = (n : ℚ) * (f.den : ℚ) := by
      rw [← h]
      unfold fval
      field_simp
    exact_mod_cast h2
  unfold ftrunc
  rw [hnum, Int.mul_tdiv_cancel _ (by exact_mod_cast hden.ne')]

theorem fLtB_iff (f g : Frac) (hf : 0 < f.den) (hg : 0 < g.den) :
    fLtB f g = true ↔ fval f < fval g := by
  have hfq : (0:ℚ) < (f.den : ℚ) := by exact_mod_cast hf
  have hgq : (0:ℚ) < (g.den : ℚ) := by exact_mod_cast hg
  unfold fLtB fval
  rw [decide_eq_true_eq, div_lt_div_iff hfq hgq]
  constructor
  · intro h
    have h2 : ((f.num * (g.den:ℤ) : ℤ) : ℚ) < ((g.num * (f.den:ℤ) : ℤ) : ℚ) := by
      exact_mod_cast h
    push_cast at h2
    linarith
  · intro h
    have h2 : ((f.num * (g.den:ℤ) : ℤ) : ℚ) < ((g.num * (f.den:ℤ) : ℤ) : ℚ) := by
      push_cast
      linarith
    exact_mod_cast h2

theorem num_pos_of_fval_pos (f : Frac) (hden : 0 < f.den) (h : 0 < fval f) :
    0 < f.num := by
  rcases div_pos_iff.1 h with ⟨h1, _⟩ | ⟨_, h2⟩
  · exact_mod_cast h1
  · have : (0:ℚ) < (f.den : ℚ) := by exact_mod_cast hden
    linarith

/-- C2 counterexample: for `v = 2^53 + 3` and `k = 1`, the implementation's
division `int(float division)` rounds the 54-bit quotient up to `2^53 + 4`,
so `(v·k)/k ≤ v` fails: the claim that division is truncating integer
division (and hence loss-only) is false. -/
theorem c2_counterexample :
    auMul 9007199254740995 1 = 9007199254740995 ∧
    auDiv (auMul 9007199254740995 1) 1 = 9007199254740996 ∧
    ¬ auDiv (auMul 9007199254740995 1) 1 ≤ (9007199254740995 : ℤ) := by
  refine ⟨by decide, by decide, by decide⟩

/-- C2 (amended): multiplication is exact modulo `2^256`; division is
CPython float true division truncated to an integer, which agrees with
truncating integer division — and is therefore loss-free, hence loss-only —
whenever the product `v*k` is below `2^53` (so that the float quotient is
exact).  (The unrestricted claim fails: see `c2_counterexample`.) -/
theorem c2_mul_div_exact_below_2pow53 (v k : ℕ) (hk : 0 < k)
    (hvk : v * k < 2 ^ 53) :
    auDiv (auMul v k) k = (v : ℤ) ∧ auDiv (auMul v k) k ≤ (v : ℤ) := by
  have hmul : auMul v k = v * k := by
    unfold auMul
    apply Nat.mod_eq_of_lt
    calc v * k < 2 ^ 53 := hvk
      _ < 2 ^ 256 := by norm_num
  have hkq : ((k : ℕ) : ℚ) ≠ 0 := by
    have h1 : (0:ℚ) < (k : ℚ) := by exact_mod_cast hk
    linarith
  have hfv : fval ⟨((v * k : ℕ) : ℤ), k⟩ = (v : ℚ) := by
    unfold fval
    simp only
    push_cast
    field_simp
  have hexact : fval (flF ⟨((v * k : ℕ) : ℤ), k⟩) = fval ⟨((v * k : ℕ) : ℤ), k⟩ := by
    apply flF_exact _ (v : ℤ) 0 hk
    · simpa using lt_of_le_of_lt (Nat.le_mul_of_pos_right v hk) hvk
    · rw [hfv]
      simp
  have hmain : auDiv (auMul v k) k = (v : ℤ) := by
    unfold auDiv pyIntTrueDiv
    rw [hmul]
    apply ftrunc_eq_of_fval_nat _ v (flF_den_pos _)
    rw [hexact, hfv]
  exact ⟨hmain, le_of_eq hmain⟩

/-- Witness for `c2_mul_div_exact_below_2pow53` at `v = 7`, `k = 3`. -/
theorem c2_mul_div_exact_below_2pow53_witness :
    auDiv (auMul 7 3) 3 = (7 : ℤ) ∧ auDiv (auMul 7 3) 3 ≤ (7 : ℤ) :=
  c2_mul_div_exact_below_2pow53 7 3 (by decide) (by decide)

theorem or_shift24 (w s : ℕ) (hw : w < 2 ^ 24) :
    w ||| (s <<< 24) = s * 2 ^ 24 + w := by
  have hrw : s * 2 ^ 24 + w = 2 ^ 24 * s + w := by ring
  rw [hrw]
  apply Nat.eq_of_testBit_eq
  intro j
  rw [Nat.testBit_or, Nat.testBit_mul_pow_two_add s hw j, Nat.testBit_shiftLeft]
  by_cases hj : j < 24
  · rw [if_pos hj]
    have hd : decide (24 ≤ j) = false := by
      simp only [decide_eq_false_iff_not]
      omega
    rw [hd]
    simp
  · rw [if_neg hj]
    have h1 : w.testBit j = false :=
      Nat.testBit_lt_two_pow
        (lt_of_lt_of_le hw (Nat.pow_le_pow_right (by norm_num) (by omega)))
    have h2 : decide (24 ≤ j) = true := by
      simp only [decide_eq_true_eq]
      omega
    rw [h1, h2]
    simp

theorem size_eq_log2_add_one (v : ℕ) (hv : 0 < v) : Nat.size v = Nat.log2 v + 1 := by
  have h1 : Nat.size v ≤ Nat.log2 v + 1 := Nat.size_le.2 Nat.lt_log2_self
  have h2 : Nat.log2 v < Nat.size v := Nat.lt_size.2 (Nat.log2_self_le hv.ne')
  omega

theorem aBits_eq_size_add_one (v : ℕ) (hv : 0 < v) : aBits v = Nat.size v + 1 := by
  unfold aBits
  rw [if_neg hv.ne', nlog2_eq, size_eq_log2_add_one v hv]

/-- Core computation of `_calculate_compact` on a value of the shape produced
by `from_compact` under a legal `bits`: a 16-to-23-bit word times a power of
`2^8`.  Because the quirky `bits` property over-counts by one, the computed
`size` is already the final one, the sign-bit adjustment never fires, and
both asserts hold. -/
theorem calcCompact_word_pow (word s3 : ℕ) (hlo : 0x8000 ≤ word)
    (hhi : word ≤ 0x7fffff) (hs3 : s3 ≤ 28) :
    calcCompact (word * 2 ^ (8 * s3)) = Except.ok (word ||| ((s3 + 3) <<< 24)) := by
  have hw0 : 0 < word := by omega
  have hv0 : 0 < word * 2 ^ (8 * s3) := by positivity
  have hp15 : (2:ℕ) ^ 15 = 32768 := by norm_num
  have hp23 : (2:ℕ) ^ 23 = 8388608 := by norm_num
  have hsizew_lo : 16 ≤ Nat.size word := by
    have h15 : (2:ℕ) ^ 15 ≤ word := by omega
    have h16 := Nat.lt_size.2 h15
    omega
  have hsizew_hi : Nat.size word ≤ 23 := Nat.size_le.2 (by omega)
  have hsizev : Nat.size (word * 2 ^ (8 * s3)) = Nat.size word + 8 * s3 := by
    rw [← Nat.shiftLeft_eq]
    exact Nat.size_shiftLeft hw0.ne' _
  have haB : aBits (word * 2 ^ (8 * s3)) = Nat.size word + 8 * s3 + 1 := by
    rw [aBits_eq_size_add_one _ hv0, hsizev]
  have hsz : (aBits (word * 2 ^ (8 * s3)) + 7) / 8 = s3 + 3 := by
    rw [haB]
    omega
  have hlow64w : low64 word = word := by
    unfold low64
    have hm : (0xffffffffffffffff : ℕ) = 2 ^ 64 - 1 := by norm_num
    rw [hm, Nat.and_pow_two_sub_one_eq_mod]
    have hp64 : (2:ℕ) ^ 64 = 18446744073709551616 := by norm_num
    exact Nat.mod_eq_of_lt (by omega)
  have hcpre : (if (aBits (word * 2 ^ (8 * s3)) + 7) / 8 ≤ 3 then
        low64 (word * 2 ^ (8 * s3)) <<<
          (8 * (3 - (aBits (word * 2 ^ (8 * s3)) + 7) / 8))
      else low64 ((word * 2 ^ (8 * s3)) >>>
          (8 * ((aBits (word * 2 ^ (8 * s3)) + 7) / 8 - 3)))) = word := by
    rw [hsz]
    by_cases h0 : s3 = 0
    · subst h0
      rw [if_pos (by norm_num)]
      simp only [mul_zero, pow_zero, mul_one, Nat.sub_self, Nat.shiftLeft_zero]
      exact hlow64w
    · rw [if_neg (by omega)]
      have hshift : (word * 2 ^ (8 * s3)) >>> (8 * (s3 + 3 - 3)) = word := by
        rw [Nat.shiftRight_eq_div_pow]
        have h3 : s3 + 3 - 3 = s3 := by omega
        rw [h3, Nat.mul_div_cancel _ (by positivity)]
      rw [hshift, hlow64w]
  have hhiBit : word &&& 0x00800000 = 0 := by
    have hm : (0x00800000 : ℕ) = 2 ^ 23 := by norm_num
    rw [hm, Nat.and_two_pow]
    have ht : word.testBit 23 = false := Nat.testBit_lt_two_pow (by omega)
    rw [ht]
    simp
  unfold calcCompact
  simp only [hcpre, hhiBit, ne_eq, not_true_eq_false, if_false, ite_false]
  rw [hsz, if_neg (by omega), if_neg (by omega)]

/-- Evaluation of `from_compact` at a value whose exponent byte is at least 3:
`word * 2^(8*(size-3))`. -/
theorem from_compact_eq (bits : ℕ) (h1 : 3 ≤ bits >>> 24) :
    from_compact bits = (bits &&& 0x007fffff) * 2 ^ (8 * (bits >>> 24 - 3)) := by
  unfold from_compact
  by_cases h : bits >>> 24 ≤ 3
  · have hs : bits >>> 24 = 3 := le_antisymm h h1
    rw [if_pos h, hs]
    simp [Nat.shiftRight_eq_div_pow]
  · rw [if_neg h, Nat.shiftLeft_eq]

/-- C5: for every `bits` in the legal compact range (exponent byte in
`[0x03, 0x1f]`, mantissa in `[0x8000, 0x7fffff]`), the `ArithUint256`
compact encoding round-trips: `from_compact(bits).compact == bits` (and the
asserts inside `_calculate_compact` hold, so no exception is raised). -/
theorem c5_compact_round_trip (bits : ℕ)
    (h1 : 0x03 ≤ bits >>> 24) (h2 : bits >>> 24 ≤ 0x1f)
    (h3 : 0x8000 ≤ bits &&& 0xffffff) (h4 : bits &&& 0xffffff ≤ 0x7fffff) :
    calcCompact (from_compact bits) = Except.ok bits := by
  have hp23 : (2:ℕ) ^ 23 = 8388608 := by norm_num
  have hp24 : (2:ℕ) ^ 24 = 16777216 := by norm_num
  have hshift : bits >>> 24 = bits / 2 ^ 24 := Nat.shiftRight_eq_div_pow _ _
  have hbase : bits &&& 0xffffff = bits % 2 ^ 24 := by
    have hm : (0xffffff : ℕ) = 2 ^ 24 - 1 := by norm_num
    rw [hm, Nat.and_pow_two_sub_one_eq_mod]
  have hword : bits &&& 0x007fffff = bits % 2 ^ 23 := by
    have hm : (0x007fffff : ℕ) = 2 ^ 23 - 1 := by norm_num
    rw [hm, Nat.and_pow_two_sub_one_eq_mod]
  have hbase' : bits &&& 0xffffff = bits % 16777216 := by rw [hbase, hp24]
  have hword' : bits &&& 0x007fffff = bits % 8388608 := by rw [hword, hp23]
  have hword_eq : bits &&& 0x007fffff = bits &&& 0xffffff := by
    rw [hword', hbase']
    omega
  rw [from_compact_eq bits h1,
    calcCompact_word_pow (bits &&& 0x007fffff) (bits >>> 24 - 3)
      (by rw [hword_eq]; exact h3) (by rw [hword_eq]; exact h4) (by omega),
    (by omega : bits >>> 24 - 3 + 3 = bits >>> 24),
    or_shift24 _ _ (by rw [hword_eq, hbase', hp24]; omega)]
  congr 1
  rw [hshift, hword_eq, hbase', hp24]
  omega

/-- Witness for `c5_compact_round_trip` at the genesis bits `0x1f00ffff`. -/
theorem c5_compact_round_trip_witness :
    calcCompact (from_compact 0x1f00ffff) = Except.ok 0x1f00ffff :=
  c5_compact_round_trip 0x1f00ffff (by decide) (by decide) (by decide) (by decide)

theorem de32_le32 (n : ℕ) (hn : n < 2 ^ 32) : de32 (le32 n) = n := by
  unfold de32 le32
  simp only [List.foldr]
  omega

theorem le32_length (n : ℕ) : (le32 n).length = 4 := rfl

/-- C9: serializing a well-formed header and deserializing at its own height
returns the header exactly, and the serialized form is 112 bytes long. -/
theorem c9_header_round_trip (h : RawHeader) (hw : WellFormedHeader h) :
    (serialize_header h).length = HEADER_SIZE ∧
    deserialize_header (serialize_header h) h.block_height = Except.ok h := by
  obtain ⟨hv, ht, hb, hn, hp, hm, hc⟩ := hw
  have hpl : h.prev_block_hash.reverse.length = 32 := by rw [List.length_reverse, hp]
  have hml : h.merkle_root.reverse.length = 32 := by rw [List.length_reverse, hm]
  have hcl : h.claim_trie_root.reverse.length = 32 := by rw [List.length_reverse, hc]
  have hlen : (serialize_header h).length = HEADER_SIZE := by
    unfold serialize_header HEADER_SIZE
    simp only [List.length_append, le32_length, hpl, hml, hcl]
  refine ⟨hlen, ?_⟩
  have e0 : (serialize_header h).take 4 = le32 h.version := by
    unfold serialize_header
    exact List.take_left' (le32_length _)
  have e4 : (serialize_header h).drop 4 = h.prev_block_hash.reverse ++
      (h.merkle_root.reverse ++ (h.claim_trie_root.reverse ++
        (le32 h.timestamp ++ (le32 h.bits ++ le32 h.nonce)))) := by
    unfold serialize_header
    exact List.drop_left' (le32_length _)
  have e36 : (serialize_header h).drop 36 = h.merkle_root.reverse ++
      (h.claim_trie_root.reverse ++ (le32 h.timestamp ++ (le32 h.bits ++ le32 h.nonce))) := by
    have h1 : (serialize_header h).drop 36 = ((serialize_header h).drop 4).drop 32 := by
      rw [List.drop_drop]
    rw [h1, e4]
    exact List.drop_left' hpl
  have e68 : (serialize_header h).drop 68 = h.claim_trie_root.reverse ++
      (le32 h.timestamp ++ (le32 h.bits ++ le32 h.nonce)) := by
    have h1 : (serialize_header h).drop 68 = ((serialize_header h).drop 36).drop 32 := by
      rw [List.drop_drop]
    rw [h1, e36]
    exact List.drop_left' hml
  have e100 : (serialize_header h).drop 100 =
      le32 h.timestamp ++ (le32 h.bits ++ le32 h.nonce) := by
    have h1 : (serialize_header h).drop 100 = ((serialize_header h).drop 68).drop 32 := by
      rw [List.drop_drop]
    rw [h1, e68]
    exact List.drop_left' hcl
  have e104 : (serialize_header h).drop 104 = le32 h.bits ++ le32 h.nonce := by
    have h1 : (serialize_header h).drop 104 = ((serialize_header h).drop 100).drop 4 := by
      rw [List.drop_drop]
    rw [h1, e100]
    exact List.drop_left' (le32_length _)
  have e108 : (serialize_header h).drop 108 = le32 h.nonce := by
    have h1 : (serialize_header h).drop 108 = ((serialize_header h).drop 104).drop 4 := by
      rw [List.drop_drop]
    rw [h1, e104]
    exact List.drop_left' (le32_length _)
  have hnil : ¬ serialize_header h = [] := by
    intro hnl
    rw [hnl] at hlen
    simp [HEADER_SIZE] at hlen
  have e108t : (le32 h.nonce).take 4 = le32 h.nonce := by
    have h2 : le32 h.nonce = le32 h.nonce ++ ([] : List ℕ) := by simp
    rw [h2]
    exact List.take_left' (le32_length _)
  unfold deserialize_header
  rw [if_neg hnil, if_neg (by simp [hlen])]
  rw [e0, e4, e36, e68, e100, e104, e108]
  rw [List.take_left' hpl, List.take_left' hml, List.take_left' hcl,
    List.take_left' (le32_length h.timestamp), List.take_left' (le32_length h.bits)]
  rw [e108t, de32_le32 _ hv, de32_le32 _ ht, de32_le32 _ hb, de32_le32 _ hn]
  simp

/-- Witness for `c9_header_round_trip` at a concrete well-formed header. -/
theorem c9_header_round_trip_witness :
    (serialize_header ⟨1, List.replicate 32 7, List.replicate 32 8,
        List.replicate 32 9, 1600000000, 0x1f00ffff, 42, 5⟩).length = HEADER_SIZE ∧
    deserialize_header
        (serialize_header ⟨1, List.replicate 32 7, List.replicate 32 8,
          List.replicate 32 9, 1600000000, 0x1f00ffff, 42, 5⟩) 5 =
      Except.ok ⟨1, List.replicate 32 7, List.replicate 32 8,
        List.replicate 32 9, 1600000000, 0x1f00ffff, 42, 5⟩ :=
  c9_header_round_trip _ (by constructor <;> decide)

/-- C8: an all-zero 112-byte record deserializes to `None` ("no header at
this slot") rather than to a header, for every height. -/
theorem c8_zero_record_is_none (height : ℤ) :
    recordToHeader (List.replicate HEADER_SIZE 0) height = Except.ok none := by
  unfold recordToHeader
  rw [if_neg (by simp), if_pos rfl]

/-- C10: on a header whose `prev_block_hash` is absent, `hash_header` writes
the 64-character all-zero hex string into that field before hashing, the
mutation is visible to the caller, and all other fields are unchanged (the
returned dict is exactly the input with only `prev_block_hash` replaced). -/
theorem c10_hash_header_mutates (hrh : HeaderD → String) (h : HeaderD)
    (hprev : h.prev_block_hash = none) :
    (hash_header hrh (some h)).2 = some { h with prev_block_hash := some zeros64 } ∧
    (hash_header hrh (some h)).1 = hrh { h with prev_block_hash := some zeros64 } ∧
    zeros64.length = 64 ∧ ∀ ch ∈ zeros64.data, ch = '0' := by
  refine ⟨by simp [hash_header, hprev], by simp [hash_header, hprev], by decide, ?_⟩
  intro ch hch
  unfold zeros64 at hch
  simp only [String.data] at hch
  exact List.eq_of_mem_replicate hch

/-- Witness for `c10_hash_header_mutates` at a concrete header. -/
theorem c10_hash_header_mutates_witness :
    (hash_header (fun _ => "d") (some ⟨1, none, "m", "c", 7, 8, 9, 3⟩)).2 =
      some ⟨1, some zeros64, "m", "c", 7, 8, 9, 3⟩ ∧
    (hash_header (fun _ => "d") (some ⟨1, none, "m", "c", 7, 8, 9, 3⟩)).1 =
      (fun (_ : HeaderD) => "d") ⟨1, some zeros64, "m", "c", 7, 8, 9, 3⟩ ∧
    zeros64.length = 64 ∧ ∀ ch ∈ zeros64.data, ch = '0' :=
  c10_hash_header_mutates (fun _ => "d") ⟨1, none, "m", "c", 7, 8, 9, 3⟩ rfl

theorem pyGet_ok {α : Type} (l : List α) (i : ℤ) (h0 : 0 ≤ i)
    (hlt : i.toNat < l.length) :
    pyGet l i = Except.ok (l.get ⟨i.toNat, hlt⟩) := by
  unfold pyGet
  have hnn : ¬ i < 0 := by omega
  simp only [hnn, if_false]
  rw [dif_pos ⟨h0, hlt⟩]

/-- C6: `verify_header` succeeds exactly when `prev_hash` equals the
header's `prev_block_hash` and, whenever a (nonempty) expected hash is
supplied, `hash_header` of the header equals it; for all values of `target`
and `bits`, on either network, it never fails for insufficient
proof-of-work or for a bits mismatch (those checks are commented out). -/
theorem c6_verify_header_iff (powh hh : Header → String) (h : Header)
    (prev_hash : String) (target bits : ℕ) (expected : Option String)
    (testnet : Bool)
    (hexp : expected = none ∨ ∃ s, expected = some s ∧ s ≠ "") :
    verify_header powh hh h prev_hash target bits expected testnet =
        Except.ok () ↔
      (prev_hash = h.prev_block_hash ∧ ∀ s, expected = some s → hh h = s) := by
  rcases hexp with hne | ⟨s, hse, hs0⟩
  · subst hne
    unfold verify_header
    by_cases hp : prev_hash = h.prev_block_hash
    · simp [hp]
    · simp [hp]
  · subst hse
    have hred : verify_header powh hh h prev_hash target bits (some s) testnet =
        (if (!(s == "") && !(s == hh h)) then Except.error PyErr.exception
         else if ¬ (prev_hash = h.prev_block_hash) then Except.error PyErr.exception
         else Except.ok ()) := rfl
    rw [hred]
    by_cases hhs : hh h = s
    · have hf : (!(s == "") && !(s == hh h)) = false := by
        simp [hhs]
      rw [hf]
      by_cases hp : prev_hash = h.prev_block_hash
      · rw [if_neg (by simp), if_neg (not_not_intro hp)]
        constructor
        · intro _
          refine ⟨hp, ?_⟩
          intro s2 hs2
          cases hs2
          exact hhs
        · intro _
          rfl
      · rw [if_neg (by simp), if_pos hp]
        constructor
        · intro hcontra
          exact Except.noConfusion hcontra
        · intro hand
          exact absurd hand.1 hp
    · have hf : (!(s == "") && !(s == hh h)) = true := by
        simp only [Bool.and_eq_true, Bool.not_eq_true', beq_eq_false_iff_ne, ne_eq]
        exact ⟨hs0, fun hc => hhs hc.symm⟩
      rw [hf]
      simp only [if_true, reduceCtorEq, false_iff, not_and]
      intro _ hall
      exact hhs (hall s rfl)

/-- Witness for `c6_verify_header_iff`: a concrete header is accepted
exactly under correct linkage, and in particular `target = 0`, `bits = 0`
do not make it fail. -/
theorem c6_verify_header_iff_witness :
    verify_header (fun _ => "p") (fun _ => "h")
        ⟨1, "prev", "m", "c", 5, 6, 7, 9⟩ "prev" 0 0 none false =
        Except.ok () ↔
      ("prev" = (Header.mk 1 "prev" "m" "c" 5 6 7 9).prev_block_hash ∧
        ∀ s, (none : Option String) = some s → (fun (_ : Header) => "h")
          (Header.mk 1 "prev" "m" "c" 5 6 7 9) = s) :=
  c6_verify_header_iff (fun _ => "p") (fun _ => "h")
    ⟨1, "prev", "m", "c", 5, 6, 7, 9⟩ "prev" 0 0 none false (Or.inl rfl)

/-- C7: `get_hash` returns the all-zero string at `-1` and the genesis hash
at `0`; at a checkpointed chunk boundary (`1 ≤ h ≤ max_checkpoint`,
`(h+1) % 2016 == 0`) it returns the stored checkpoint hash for index
`h // 2016` regardless of the chain's file contents; at every other height
it returns `hash_header` of the stored header, raising `MissingHeader(h)`
when no header is stored there. -/
theorem c7_get_hash_cases (c : Chain) (hh : Header → String) :
    (get_hash c hh (-1) = Except.ok zeros64) ∧
    (get_hash c hh 0 = Except.ok c.genesis) ∧
    (∀ hgt : ℤ, 1 ≤ hgt → hgt ≤ maxCheckpoint c → (hgt + 1) % 2016 = 0 →
      ∃ p : String × ℕ,
        c.checkpoints.get? (Int.fdiv hgt 2016).toNat = some p ∧
        get_hash c hh hgt = Except.ok p.1) ∧
    (∀ hgt : ℤ, hgt ≠ -1 → hgt ≠ 0 →
      ¬ (hgt ≤ maxCheckpoint c ∧ (hgt + 1) % 2016 = 0) →
      (read_header c hgt = none →
        get_hash c hh hgt = Except.error (PyErr.missingHeader hgt)) ∧
      (∀ hd, read_header c hgt = some hd →
        get_hash c hh hgt = Except.ok (hh hd))) := by
  refine ⟨by unfold get_hash; simp, by unfold get_hash; simp, ?_, ?_⟩
  · intro hgt h1 h2 h3
    have hne1 : hgt ≠ -1 := by omega
    have hne0 : hgt ≠ 0 := by omega
    have hfd : Int.fdiv hgt 2016 = hgt / 2016 :=
      Int.fdiv_eq_ediv _ (by norm_num)
    have hlen : 1 ≤ c.checkpoints.length := by
      unfold maxCheckpoint at h2
      omega
    have hj0 : 0 ≤ Int.fdiv hgt 2016 := by
      rw [hfd]
      omega
    have hjlen : (Int.fdiv hgt 2016).toNat < c.checkpoints.length := by
      rw [hfd]
      unfold maxCheckpoint at h2
      omega
    have hget : c.checkpoints.get? (Int.fdiv hgt 2016).toNat =
        some (c.checkpoints.get ⟨(Int.fdiv hgt 2016).toNat, hjlen⟩) :=
      List.get?_eq_get hjlen
    refine ⟨c.checkpoints.get ⟨(Int.fdiv hgt 2016).toNat, hjlen⟩, hget, ?_⟩
    unfold get_hash
    rw [if_neg hne1, if_neg hne0, if_pos ⟨h2, h3⟩, pyGet_ok _ _ hj0 hjlen]
    rfl
  · intro hgt hne1 hne0 hncp
    constructor
    · intro hrd
      unfold get_hash
      rw [if_neg hne1, if_neg hne0, if_neg hncp, hrd]
    · intro hd hrd
      unfold get_hash
      rw [if_neg hne1, if_neg hne0, if_neg hncp, hrd]

/-- Witness for `c7_get_hash_cases`: checkpoint priority at height 2015 on a
one-checkpoint chain whose file holds nothing at that height. -/
theorem c7_get_hash_cases_witness :
    ∃ p : String × ℕ,
      (Chain.mk 10 (fun _ => none) [("aa", 5)] "gg" false).checkpoints.get?
          (Int.fdiv 2015 2016).toNat = some p ∧
      get_hash (Chain.mk 10 (fun _ => none) [("aa", 5)] "gg" false)
          (fun _ => "hsh") 2015 = Except.ok p.1 :=
  (c7_get_hash_cases (Chain.mk 10 (fun _ => none) [("aa", 5)] "gg" false)
      (fun _ => "hsh")).2.2.1 2015 (by decide) (by decide) (by decide)

theorem fval_mk (n : ℤ) (d : ℕ) : fval ⟨n, d⟩ = (n : ℚ) / d := rfl

theorem fval_mk_dyadic (n : ℤ) (d : ℕ) (k : ℕ) (hd : d = 2 ^ k) :
    fval ⟨n, d⟩ = (n : ℚ) * 2 ^ (-(k : ℤ)) := by
  rw [fval_mk, hd, zpow_neg, zpow_natCast, div_eq_mul_inv]
  push_cast
  ring

theorem fSub_den_pos (f g : Frac) (hf : 0 < f.den) (hg : 0 < g.den) :
    0 < (fSub f g).den := Nat.mul_pos hf hg

theorem fAdd_den_pos (f g : Frac) (hf : 0 < f.den) (hg : 0 < g.den) :
    0 < (fAdd f g).den := Nat.mul_pos hf hg

theorem fMul_den_pos (f g : Frac) (hf : 0 < f.den) (hg : 0 < g.den) :
    0 < (fMul f g).den := Nat.mul_pos hf hg

theorem fDiv_den_pos (f g : Frac) (hf : 0 < f.den) (hgn : 0 < g.num) :
    0 < (fDiv f g).den := Nat.mul_pos hf (by omega)

theorem num_lt_of_fval_lt (f : Frac) (y : ℕ) (hden : 0 < f.den)
    (h : fval f < (y : ℚ)) : f.num < (y : ℤ) * (f.den : ℤ) := by
  have hdq : (0:ℚ) < (f.den : ℚ) := by exact_mod_cast hden
  have h2 : (f.num : ℚ) < (y : ℚ) * (f.den : ℚ) := by
    have := (div_lt_iff hdq).1 h
    linarith
  exact_mod_cast h2

/-- Value of the pyIntToFloat of a small integer. -/
theorem fval_pyIntToFloat_small (n : ℤ) (hn : n.natAbs < 2 ^ 53) :
    fval (pyIntToFloat n) = (n : ℚ) := by
  unfold pyIntToFloat
  rw [flF_exact ⟨n, 1⟩ n 0 Nat.one_pos hn (by rw [fval_mk]; simp), fval_mk]
  simp

theorem fval_nModulated (a : ℤ) (ha : a.natAbs < 2 ^ 33) :
    fval (pyFSub (pyIntToFloat 150) (pyIntTrueDiv (a - 150) 8)) =
      ((1350 - a : ℤ) : ℚ) / 8 := by
  have hx : fval (pyIntTrueDiv (a - 150) 8) = ((a - 150 : ℤ) : ℚ) / 8 := by
    unfold pyIntTrueDiv
    rw [flF_exact ⟨a - 150, 8⟩ (a - 150) (-3) (by norm_num) (by omega)
      (by rw [fval_mk_dyadic (a - 150) 8 3 (by norm_num)]; norm_num), fval_mk]
    norm_num
  have h150 : fval (pyIntToFloat 150) = 150 := by
    rw [fval_pyIntToFloat_small 150 (by norm_num)]
    norm_num
  have hxden : 0 < (pyIntTrueDiv (a - 150) 8).den := flF_den_pos _
  have h150den : 0 < (pyIntToFloat 150).den := flF_den_pos _
  have hsub : fval (fSub (pyIntToFloat 150) (pyIntTrueDiv (a - 150) 8)) =
      ((1350 - a : ℤ) : ℚ) / 8 := by
    rw [fval_fSub _ _ h150den hxden, h150, hx]
    push_cast
    ring
  unfold pyFSub
  rw [flF_exact _ (1350 - a) (-3) (fSub_den_pos _ _ h150den hxden) (by omega)
    (by rw [hsub]; push_cast; norm_num [zpow_neg]; ring), hsub]

theorem fval_nMin :
    fval (pyFSub (pyIntToFloat 150) (pyIntTrueDiv 150 8)) = 525 / 4 := by
  have hx : fval (pyIntTrueDiv 150 8) = 150 / 8 := by
    unfold pyIntTrueDiv
    rw [flF_exact ⟨150, 8⟩ 75 (-2) (by norm_num) (by norm_num)
      (by rw [fval_mk_dyadic 150 8 3 (by norm_num)]; norm_num), fval_mk]
    norm_num
  have h150 : fval (pyIntToFloat 150) = 150 := by
    rw [fval_pyIntToFloat_small 150 (by norm_num)]
    norm_num
  have hxden : 0 < (pyIntTrueDiv 150 8).den := flF_den_pos _
  have h150den : 0 < (pyIntToFloat 150).den := flF_den_pos _
  have hsub : fval (fSub (pyIntToFloat 150) (pyIntTrueDiv 150 8)) = 525 / 4 := by
    rw [fval_fSub _ _ h150den hxden, h150, hx]
    norm_num
  unfold pyFSub
  rw [flF_exact _ 525 (-2) (fSub_den_pos _ _ h150den hxden) (by norm_num)
    (by rw [hsub]; norm_num), hsub]

theorem fval_nMax :
    fval (pyFAdd (pyIntToFloat 150) (pyIntTrueDiv 150 2)) = 225 := by
  have hx : fval (pyIntTrueDiv 150 2) = 150 / 2 := by
    unfold pyIntTrueDiv
    rw [flF_exact ⟨150, 2⟩ 75 0 (by norm_num) (by norm_num)
      (by rw [fval_mk_dyadic 150 2 1 (by norm_num)]; norm_num), fval_mk]
    norm_num
  have h150 : fval (pyIntToFloat 150) = 150 := by
    rw [fval_pyIntToFloat_small 150 (by norm_num)]
    norm_num
  have hxden : 0 < (pyIntTrueDiv 150 2).den := flF_den_pos _
  have h150den : 0 < (pyIntToFloat 150).den := flF_den_pos _
  have hadd : fval (fAdd (pyIntToFloat 150) (pyIntTrueDiv 150 2)) = 225 := by
    rw [fval_fAdd _ _ h150den hxden, h150, hx]
    norm_num
  unfold pyFAdd
  rw [flF_exact _ 225 0 (fAdd_den_pos _ _ h150den hxden) (by norm_num)
    (by rw [hadd]; norm_num), hadd]

theorem retarget_nMod_spec (a : ℤ) (ha : a.natAbs < 2 ^ 33) :
    ∃ (k : ℤ) (g : Frac),
      (if fLtB (pyFSub (pyIntToFloat 150) (pyIntTrueDiv (a - 150) 8))
             (pyFSub (pyIntToFloat 150) (pyIntTrueDiv 150 8)) then
         pyFSub (pyIntToFloat 150) (pyIntTrueDiv 150 8)
       else if fLtB (pyFAdd (pyIntToFloat 150) (pyIntTrueDiv 150 2))
             (pyFSub (pyIntToFloat 150) (pyIntTrueDiv (a - 150) 8)) then
         pyFAdd (pyIntToFloat 150) (pyIntTrueDiv 150 2)
       else pyFSub (pyIntToFloat 150) (pyIntTrueDiv (a - 150) 8)) = g ∧
      1050 ≤ k ∧ k ≤ 1800 ∧ fval g = (k : ℚ) / 8 ∧ 0 < g.den ∧ 0 < g.num := by
  have hmdden : 0 < (pyFSub (pyIntToFloat 150) (pyIntTrueDiv (a - 150) 8)).den :=
    flF_den_pos _
  have hmnden : 0 < (pyFSub (pyIntToFloat 150) (pyIntTrueDiv 150 8)).den :=
    flF_den_pos _
  have hmxden : 0 < (pyFAdd (pyIntToFloat 150) (pyIntTrueDiv 150 2)).den :=
    flF_den_pos _
  have hmdv := fval_nModulated a ha
  have hmnv := fval_nMin
  have hmxv := fval_nMax
  by_cases h1 : fLtB (pyFSub (pyIntToFloat 150) (pyIntTrueDiv (a - 150) 8))
      (pyFSub (pyIntToFloat 150) (pyIntTrueDiv 150 8)) = true
  · refine ⟨1050, _, by rw [if_pos h1], by norm_num, by norm_num, ?_, hmnden, ?_⟩
    · rw [hmnv]
      norm_num
    · apply num_pos_of_fval_pos _ hmnden
      rw [hmnv]
      norm_num
  · by_cases h2 : fLtB (pyFAdd (pyIntToFloat 150) (pyIntTrueDiv 150 2))
        (pyFSub (pyIntToFloat 150) (pyIntTrueDiv (a - 150) 8)) = true
    · refine ⟨1800, _, by rw [if_neg h1, if_pos h2], by norm_num, by norm_num, ?_,
        hmxden, ?_⟩
      · rw [hmxv]
        norm_num
      · apply num_pos_of_fval_pos _ hmxden
        rw [hmxv]
        norm_num
    · have hge : ¬ (fval (pyFSub (pyIntToFloat 150) (pyIntTrueDiv (a - 150) 8)) <
          fval (pyFSub (pyIntToFloat 150) (pyIntTrueDiv 150 8))) := by
        intro hc
        exact h1 ((fLtB_iff _ _ hmdden hmnden).2 hc)
      have hle : ¬ (fval (pyFAdd (pyIntToFloat 150) (pyIntTrueDiv 150 2)) <
          fval (pyFSub (pyIntToFloat 150) (pyIntTrueDiv (a - 150) 8))) := by
        intro hc
        exact h2 ((fLtB_iff _ _ hmxden hmdden).2 hc)
      rw [hmdv, hmnv] at hge
      rw [hmdv, hmxv] at hle
      push_neg at hge hle
      have hk_lo : 1050 ≤ 1350 - a := by
        have h3 : (1050 : ℚ) ≤ ((1350 - a : ℤ) : ℚ) := by
          have h4 : (525 : ℚ) / 4 = 1050 / 8 := by norm_num
          rw [h4] at hge
          have h5 := (div_le_div_iff_of_pos_right (by norm_num : (0:ℚ) < 8)).2 hge
          linarith [hge]
        exact_mod_cast h3
      have hk_hi : 1350 - a ≤ 1800 := by
        have h3 : ((1350 - a : ℤ) : ℚ) ≤ 1800 := by
          have h5 : ((1350 - a : ℤ) : ℚ) / 8 ≤ 225 := hle
          linarith
        exact_mod_cast h3
      refine ⟨1350 - a, _, by rw [if_neg h1, if_neg h2], hk_lo, hk_hi, hmdv, hmdden, ?_⟩
      apply num_pos_of_fval_pos _ hmdden
      rw [hmdv]
      have h3 : (0 : ℚ) < ((1350 - a : ℤ) : ℚ) := by
        have : (0 : ℤ) < 1350 - a := by omega
        exact_mod_cast this
      positivity

/-- The heart of C1: for a legal old target `w * 2^(8*s3)` (16-23 bit word,
`s3 ≤ 28`) and a 33-bit-bounded actual timespan, every float operation in
the retargeting block is exact (all intermediate values fit in 53-bit
significands and the product stays below `2^256`), so multiplying by the
modulated timespan and dividing by it again returns the old target
unchanged. -/
theorem retargetDiv_eq (a : ℤ) (w s3 : ℕ) (ha : a.natAbs < 2 ^ 33)
    (hwlo : 0x8000 ≤ w) (hwhi : w ≤ 0x7fffff) (hs3 : s3 ≤ 28) :
    retargetDiv a (w * 2 ^ (8 * s3)) = ((w * 2 ^ (8 * s3) : ℕ) : ℤ) := by
  obtain ⟨k, g, hgeq, hk1, hk2, hgval, hgden, hgnum⟩ := retarget_nMod_spec a ha
  have hB53 : w < 2 ^ 53 := by omega
  unfold retargetDiv
  simp only
  rw [hgeq]
  have hpdden : 0 < (pyIntToFloat ((w * 2 ^ (8*s3) : ℕ) : ℤ)).den := flF_den_pos _
  have hBval0 : fval ⟨((w * 2 ^ (8*s3) : ℕ) : ℤ), 1⟩ =
      ((w : ℤ) : ℚ) * 2 ^ ((8*s3 : ℕ) : ℤ) := by
    rw [fval_mk, zpow_natCast]
    push_cast
    ring
  have hBv : fval (pyIntToFloat ((w * 2 ^ (8*s3) : ℕ) : ℤ)) =
      ((w * 2 ^ (8*s3) : ℕ) : ℚ) := by
    unfold pyIntToFloat
    rw [flF_exact _ (w : ℤ) ((8*s3 : ℕ) : ℤ) Nat.one_pos (by simpa using hB53) hBval0,
      fval_mk]
    simp
  have hmulden : 0 < (fMul (pyIntToFloat ((w * 2 ^ (8*s3) : ℕ) : ℤ)) g).den :=
    fMul_den_pos _ _ hpdden hgden
  have hmulv : fval (fMul (pyIntToFloat ((w * 2 ^ (8*s3) : ℕ) : ℤ)) g) =
      ((w * 2 ^ (8*s3) : ℕ) : ℚ) * ((k : ℚ) / 8) := by
    rw [fval_fMul _ _ hpdden hgden, hBv, hgval]
  have hwk : ((w : ℤ) * k).natAbs < 2 ^ 53 := by
    rw [Int.natAbs_mul]
    have h1 : ((w : ℤ)).natAbs = w := Int.natAbs_ofNat w
    have h2 : k.natAbs ≤ 1800 := by omega
    calc ((w : ℤ)).natAbs * k.natAbs ≤ 8388607 * 1800 := by
          rw [h1]
          exact Nat.mul_le_mul hwhi h2
      _ < 2 ^ 53 := by norm_num
  have hmulExact : fval (fMul (pyIntToFloat ((w * 2 ^ (8*s3) : ℕ) : ℤ)) g) =
      (((w : ℤ) * k : ℤ) : ℚ) * 2 ^ (((8*s3 : ℕ) : ℤ) - 3) := by
    rw [hmulv]
    have hz : (2:ℚ) ^ (((8*s3 : ℕ) : ℤ) - 3) = 2 ^ (8*s3 : ℕ) / 8 := by
      rw [zpow_sub₀ (by norm_num : (2:ℚ) ≠ 0), zpow_natCast]
      norm_num
    rw [hz]
    push_cast
    ring
  have hPv : fval (pyFMul (pyIntToFloat ((w * 2 ^ (8*s3) : ℕ) : ℤ)) g) =
      ((w * 2 ^ (8*s3) : ℕ) : ℚ) * ((k : ℚ) / 8) := by
    unfold pyFMul
    rw [flF_exact _ ((w : ℤ) * k) (((8*s3 : ℕ) : ℤ) - 3) hmulden hwk hmulExact, hmulv]
  have hPden : 0 < (pyFMul (pyIntToFloat ((w * 2 ^ (8*s3) : ℕ) : ℤ)) g).den :=
    flF_den_pos _
  have hkqpos : (0 : ℚ) < (k : ℚ) := by
    have : (0 : ℤ) < k := by omega
    exact_mod_cast this
  have hBqpos : (0 : ℚ) < ((w * 2 ^ (8*s3) : ℕ) : ℚ) := by
    have : 0 < w * 2 ^ (8*s3) := by positivity
    exact_mod_cast this
  have hPpos : 0 < fval (pyFMul (pyIntToFloat ((w * 2 ^ (8*s3) : ℕ) : ℤ)) g) := by
    rw [hPv]
    positivity
  have hPnum : 0 < (pyFMul (pyIntToFloat ((w * 2 ^ (8*s3) : ℕ) : ℤ)) g).num :=
    num_pos_of_fval_pos _ hPden hPpos
  have hBq : ((w * 2 ^ (8*s3) : ℕ) : ℚ) < 2 ^ 247 := by
    have hn : (w * 2 ^ (8*s3) : ℕ) < 2 ^ 247 := by
      calc w * 2 ^ (8*s3) ≤ 8388607 * 2 ^ 224 :=
            Nat.mul_le_mul hwhi (Nat.pow_le_pow_right (by norm_num) (by omega))
        _ < 2 ^ 247 := by norm_num
    exact_mod_cast hn
  have hPlt : fval (pyFMul (pyIntToFloat ((w * 2 ^ (8*s3) : ℕ) : ℤ)) g) <
      ((2 ^ 256 : ℕ) : ℚ) := by
    rw [hPv]
    have hkq : (k : ℚ) ≤ 1800 := by exact_mod_cast hk2
    calc ((w * 2 ^ (8*s3) : ℕ) : ℚ) * ((k : ℚ) / 8)
        ≤ ((w * 2 ^ (8*s3) : ℕ) : ℚ) * 225 := by
          apply mul_le_mul_of_nonneg_left _ (le_of_lt hBqpos)
          linarith
      _ < 2 ^ 247 * 225 := by
          exact mul_lt_mul_of_pos_right hBq (by norm_num)
      _ ≤ ((2 ^ 256 : ℕ) : ℚ) := by
          push_cast
          norm_num
  have hprodeq : pymodF (pyFMul (pyIntToFloat ((w * 2 ^ (8*s3) : ℕ) : ℤ)) g) (2 ^ 256) =
      pyFMul (pyIntToFloat ((w * 2 ^ (8*s3) : ℕ) : ℤ)) g := by
    apply pymodF_eq_self
    · exact le_of_lt hPnum
    · exact num_lt_of_fval_lt _ _ hPden hPlt
  rw [hprodeq]
  have hdivInner : fval (fDiv (pyFMul (pyIntToFloat ((w * 2 ^ (8*s3) : ℕ) : ℤ)) g) g) =
      ((w * 2 ^ (8*s3) : ℕ) : ℚ) := by
    rw [fval_fDiv _ _ hPden hgden hgnum, hPv, hgval]
    field_simp
  have hdivExact : fval (fDiv (pyFMul (pyIntToFloat ((w * 2 ^ (8*s3) : ℕ) : ℤ)) g) g) =
      ((w : ℤ) : ℚ) * 2 ^ ((8*s3 : ℕ) : ℤ) := by
    rw [hdivInner, zpow_natCast]
    push_cast
    ring
  have hdivden : 0 < (fDiv (pyFMul (pyIntToFloat ((w * 2 ^ (8*s3) : ℕ) : ℤ)) g) g).den :=
    fDiv_den_pos _ _ hPden hgnum
  have hfinal : fval (pyFDiv (pyFMul (pyIntToFloat ((w * 2 ^ (8*s3) : ℕ) : ℤ)) g) g) =
      ((w * 2 ^ (8*s3) : ℕ) : ℚ) := by
    unfold pyFDiv
    rw [flF_exact _ (w : ℤ) ((8*s3 : ℕ) : ℤ) hdivden (by simpa using hB53) hdivExact,
      hdivInner]
  exact ftrunc_eq_of_fval_nat _ _ (flF_den_pos _) hfinal

theorem from_compact_legal (bits : ℕ) (h32 : bits < 2 ^ 32)
    (hb : checkBitsB bits = true) :
    0x8000 ≤ bits &&& 0x007fffff ∧ bits &&& 0x007fffff ≤ 0x7fffff ∧
    bits >>> 24 - 3 ≤ 28 ∧
    from_compact bits = (bits &&& 0x007fffff) * 2 ^ (8 * (bits >>> 24 - 3)) := by
  unfold checkBitsB at hb
  simp only [Bool.and_eq_true, decide_eq_true_eq] at hb
  obtain ⟨⟨⟨h3l, h3h⟩, hwl⟩, hwh⟩ := hb
  have hshift : bits >>> 24 = bits / 2 ^ 24 := Nat.shiftRight_eq_div_pow _ _
  have hp24 : (2:ℕ) ^ 24 = 16777216 := by norm_num
  have hp32 : (2:ℕ) ^ 32 = 4294967296 := by norm_num
  have hsize8 : bits >>> 24 < 256 := by
    rw [hshift, hp24]
    omega
  have hmask : (bits >>> 24) &&& 0xff = bits >>> 24 := by
    have hm : (0xff : ℕ) = 2 ^ 8 - 1 := by norm_num
    rw [hm, Nat.and_pow_two_sub_one_eq_mod]
    have hp8 : (2:ℕ) ^ 8 = 256 := by norm_num
    rw [hp8]
    exact Nat.mod_eq_of_lt hsize8
  rw [hmask] at h3l h3h
  have hbase : bits &&& 0xffffff = bits % 2 ^ 24 := by
    have hm : (0xffffff : ℕ) = 2 ^ 24 - 1 := by norm_num
    rw [hm, Nat.and_pow_two_sub_one_eq_mod]
  have hword : bits &&& 0x007fffff = bits % 2 ^ 23 := by
    have hm : (0x007fffff : ℕ) = 2 ^ 23 - 1 := by norm_num
    rw [hm, Nat.and_pow_two_sub_one_eq_mod]
  have hp23 : (2:ℕ) ^ 23 = 8388608 := by norm_num
  have hword_eq : bits &&& 0x007fffff = bits &&& 0xffffff := by
    have hwh24 : bits % 2 ^ 24 ≤ 0x7fffff := by
      rw [← hbase]
      exact hwh
    rw [hword, hbase, hp23, hp24]
    rw [hp24] at hwh24
    omega
  have hs3 : bits >>> 24 - 3 ≤ 28 := by omega
  exact ⟨by rw [hword_eq]; exact hwl, by rw [hword_eq]; exact hwh, hs3,
    from_compact_eq bits h3l⟩

theorem specModulated_range (a : ℤ) :
    131 ≤ specModulated a ∧ specModulated a ≤ 225 := by
  unfold specModulated
  have hN : ((N_TARGET_TIMESPAN : ℕ) : ℤ) = 150 := by norm_num [N_TARGET_TIMESPAN]
  rw [hN]
  have hlo : Int.tdiv ((150 : ℤ) * 7) 8 = 131 := by decide
  have hhi : Int.tdiv ((150 : ℤ) * 3) 2 = 225 := by decide
  rw [hlo, hhi]
  simp only
  split_ifs <;> omega

/-- C1: for every `index > 0` with the preceding header `first` available
and a candidate header `last` whose `bits` field is a legal u32 compact
(and u32 timestamps, as every deserialized header has), `get_target2`
returns exactly the claimed formula: the modulated timespan
`N_TARGET_TIMESPAN − (actual − N_TARGET_TIMESPAN)/8` under truncating
integer division, clamped to `[N·7/8, N·3/2]`, the new target
`(old · modulated) / modulated` computed modulo `2^256`, capped at
`MAX_TARGET`, together with its compact encoding.  (The source's float
arithmetic is exact on this range, so it computes the same values.) -/
theorem c1_get_target2_matches_spec (c : Chain) (index : ℤ) (last first : Header)
    (hidx : 1 ≤ index)
    (hfirst : read_header c (index - 1) = some first)
    (hbits32 : last.bits < 2 ^ 32)
    (hbits : checkBitsB last.bits = true)
    (hts_l : last.timestamp < 2 ^ 32) (hts_f : first.timestamp < 2 ^ 32) :
    get_target2 c index last =
      (calcCompact (specNewTarget ((last.timestamp : ℤ) - (first.timestamp : ℤ))
          (from_compact last.bits))).map
        (fun cb => (cb, specNewTarget ((last.timestamp : ℤ) - (first.timestamp : ℤ))
          (from_compact last.bits))) := by
  obtain ⟨hwlo, hwhi, hs3, hfc⟩ := from_compact_legal last.bits hbits32 hbits
  have ha : ((last.timestamp : ℤ) - (first.timestamp : ℤ)).natAbs < 2 ^ 33 := by
    omega
  have hrd := retargetDiv_eq ((last.timestamp : ℤ) - (first.timestamp : ℤ))
    (last.bits &&& 0x007fffff) (last.bits >>> 24 - 3) ha hwlo hwhi hs3
  have hspec : specNewTarget ((last.timestamp : ℤ) - (first.timestamp : ℤ))
      ((last.bits &&& 0x007fffff) * 2 ^ (8 * (last.bits >>> 24 - 3))) =
      if (((last.bits &&& 0x007fffff) * 2 ^ (8 * (last.bits >>> 24 - 3)) : ℕ) : ℤ) >
          (MAX_TARGET : ℤ) then MAX_TARGET
      else (last.bits &&& 0x007fffff) * 2 ^ (8 * (last.bits >>> 24 - 3)) := by
    have hmr := specModulated_range ((last.timestamp : ℤ) - (first.timestamp : ℤ))
    unfold specNewTarget
    simp only
    have hmpos : 0 < (specModulated ((last.timestamp : ℤ) - (first.timestamp : ℤ))).toNat := by
      omega
    have hmle : (specModulated ((last.timestamp : ℤ) - (first.timestamp : ℤ))).toNat ≤ 225 := by
      omega
    have hmod : (last.bits &&& 0x007fffff) * 2 ^ (8 * (last.bits >>> 24 - 3)) *
        (specModulated ((last.timestamp : ℤ) - (first.timestamp : ℤ))).toNat % 2 ^ 256 =
        (last.bits &&& 0x007fffff) * 2 ^ (8 * (last.bits >>> 24 - 3)) *
        (specModulated ((last.timestamp : ℤ) - (first.timestamp : ℤ))).toNat := by
      apply Nat.mod_eq_of_lt
      calc (last.bits &&& 0x007fffff) * 2 ^ (8 * (last.bits >>> 24 - 3)) *
          (specModulated ((last.timestamp : ℤ) - (first.timestamp : ℤ))).toNat
          ≤ 8388607 * 2 ^ 224 * 225 := by
            apply Nat.mul_le_mul _ hmle
            exact Nat.mul_le_mul hwhi (Nat.pow_le_pow_right (by norm_num) (by omega))
        _ < 2 ^ 256 := by norm_num
    rw [hmod, Nat.mul_div_cancel _ hmpos]
    by_cases hgt : (last.bits &&& 0x007fffff) * 2 ^ (8 * (last.bits >>> 24 - 3)) >
        MAX_TARGET
    · rw [if_pos hgt, if_pos (by exact_mod_cast hgt)]
    · rw [if_neg hgt, if_neg (fun hc => hgt (by exact_mod_cast hc))]
  unfold get_target2
  rw [if_neg (by omega : ¬ index = -1), if_neg (by omega : ¬ index = 0)]
  simp only [hfirst, hbits, eq_self_iff_true, not_true, if_false, ite_false]
  rw [hfc, hrd, hspec]
  have htn : ((((last.bits &&& 0x007fffff) * 2 ^ (8 * (last.bits >>> 24 - 3)) : ℕ) : ℤ)).toNat =
      (last.bits &&& 0x007fffff) * 2 ^ (8 * (last.bits >>> 24 - 3)) := by omega
  rw [htn]

/-- Witness for `c1_get_target2_matches_spec` at a concrete chain, index 10,
stored previous header (timestamp 1000) and candidate header (timestamp
1100, genesis bits). -/
theorem c1_get_target2_matches_spec_witness :
    get_target2
        (Chain.mk 10 (fun n => if n = 9 then
          some ⟨1, "p", "m", "c", 1000, 0x1f00ffff, 7, 9⟩ else none) [] "g" false)
        10 ⟨1, "q", "m", "c", 1100, 0x1f00ffff, 8, 10⟩ =
      (calcCompact (specNewTarget (((1100 : ℕ) : ℤ) - ((1000 : ℕ) : ℤ))
          (from_compact 0x1f00ffff))).map
        (fun cb => (cb, specNewTarget (((1100 : ℕ) : ℤ) - ((1000 : ℕ) : ℤ))
          (from_compact 0x1f00ffff))) :=
  c1_get_target2_matches_spec
    (Chain.mk 10 (fun n => if n = 9 then
      some ⟨1, "p", "m", "c", 1000, 0x1f00ffff, 7, 9⟩ else none) [] "g" false)
    10 ⟨1, "q", "m", "c", 1100, 0x1f00ffff, 8, 10⟩
    ⟨1, "p", "m", "c", 1000, 0x1f00ffff, 7, 9⟩
    (by decide) (by decide) (by decide) (by decide) (by decide) (by decide)

/-- C3 counterexample: a candidate header at the right height with matching
previous hash but a malformed `bits` field (0) makes `can_connect` raise
`AssertionError` — the `check_bits` assert inside `get_target2`, which the
surrounding `except MissingHeader` does not catch — rather than return
false, so `can_connect` is not a total predicate. -/
theorem c3_counterexample :
    can_connect
        (Chain.mk 10 (fun n => if n = 9 then
          some ⟨1, "pp", "m", "c", 100, 0x1f00ffff, 5, 9⟩ else none) [] "gen" false)
        (fun _ => "PW") (fun _ => "HH")
        (some ⟨1, "HH", "m", "c", 130, 0, 5, 10⟩) true =
      Except.error PyErr.assertionError := by
  decide

/-- C3 (amended): `can_connect` swallows every failure of the hash lookup
and of the final verification (returning false), and a `None` header is
false — but any exception other than `MissingHeader` raised inside
`get_target2` (the malformed-bits `AssertionError`, the
absent-previous-header `AttributeError`, or a `_calculate_compact` assert)
propagates: every error outcome of `can_connect` is exactly an error
outcome of `get_target2` on the candidate header. -/
theorem c3_can_connect_error_comes_from_get_target2
    (c : Chain) (powh hh : Header → String) (header : Option Header)
    (check_height : Bool) (e : PyErr)
    (herr : can_connect c powh hh header check_height = Except.error e) :
    ∃ h, header = some h ∧ get_target2 c h.block_height h = Except.error e := by
  match header with
  | none => exact absurd herr (by simp [can_connect])
  | some h =>
    refine ⟨h, rfl, ?_⟩
    simp only [can_connect] at herr
    repeat' split at herr
    all_goals first
      | exact Except.noConfusion herr
      | (injection herr with he; subst he; assumption)

/-- Witness for `c3_can_connect_error_comes_from_get_target2`: the error is
an `AttributeError` when the previous height is covered by a checkpoint
(so `get_hash` succeeds) but its header is not stored (so `first` is
`None`). -/
theorem c3_can_connect_error_comes_from_get_target2_witness :
    ∃ h, (some (⟨1, "cp", "m", "c", 50, 0x1f00ffff, 2, 2016⟩ : Header)) = some h ∧
      get_target2 (Chain.mk 2016 (fun _ => none) [("cp", 7)] "g" false)
        h.block_height h = Except.error PyErr.attributeError :=
  c3_can_connect_error_comes_from_get_target2
    (Chain.mk 2016 (fun _ => none) [("cp", 7)] "g" false)
    (fun _ => "PW") (fun _ => "HH")
    (some ⟨1, "cp", "m", "c", 50, 0x1f00ffff, 2, 2016⟩) true
    PyErr.attributeError (by decide)

set_option maxRecDepth 100000 in
/-- C4: on mainnet, for an index at or past the end of the checkpoint list
with both boundary headers of the chunk present and a legal `bits` field,
`get_target` does not return the retargeted `(bits, target)` pair: the
final `return bnNew.compact(), bnNew._value` calls the integer value of the
`compact` property and raises `TypeError`. -/
theorem c4_get_target_typeerror :
    get_target
        (Chain.mk 2016 (fun n => if n = 0 then
            some ⟨1, "p0", "m", "c", 1000, 0x1f00ffff, 5, 0⟩
          else if n = 2015 then
            some ⟨1, "p1", "m", "c", 1000, 0x1f00ffff, 6, 2015⟩
          else none) [] "gen" false) 0 =
      Except.error PyErr.typeError := by
  decide
